import Mathlib

/-!
# gcfix: the security header checker and repairer of a cartridge ROM image

A shallow embedding of `src/gcfix.c`.

* The ROM buffer is a `List Nat` of bytes; `rom[off]` on the C side is a
  bounds-checked access here, and an access outside the buffer ends the run
  with a `Fault` (the C program has undefined behaviour there).
* A C pointer into the buffer that has been advanced (`rom += 0x40000`) is the
  pair of the buffer and the advance `base`.
* Every run records the table rows it selects and the buffer offsets it reads
  and writes, in order, so that statements about what the code touches can be
  made about the code itself.
* `uint8_t` arithmetic is `Nat` arithmetic with an explicit `% 256`; the
  `uint32_t` offset is computed in `Int` and reduced `% 2^32`.
-/

namespace GcFix

/-! ## Runs: a log of accesses and a result or a fault -/

/-- One observable step of a run. -/
inductive Event where
  | row (n : Nat)
  | read (off : Nat)
  | write (off : Nat)
deriving DecidableEq, Repr

/-- The ways a run leaves defined behaviour: an access to the ROM buffer or to
the security table outside its bounds, a read past the end of a string
literal, or a loop model that ran out of fuel. -/
inductive Fault where
  | romOob (off : Nat)
  | tableOob (n : Nat)
  | literalOob
  | fuel
deriving DecidableEq, Repr

/-- The result of a run: a value, or the fault that ended it. -/
inductive Outcome (α : Type) where
  | ok (a : α)
  | fault (f : Fault)
deriving DecidableEq, Repr

/-- A run: the accesses made, in order, and how it ended. -/
structure Run (α : Type) where
  log : List Event
  out : Outcome α

/-- A run that does nothing and yields a value. -/
def Run.ret {α : Type} (a : α) : Run α := ⟨[], .ok a⟩

/-- Sequencing of runs: a fault ends the run, keeping the log so far. -/
def Run.andThen {α β : Type} (x : Run α) (f : α → Run β) : Run β :=
  match x.out with
  | .fault e => ⟨x.log, .fault e⟩
  | .ok a => ⟨x.log ++ (f a).log, (f a).out⟩

instance : Monad Run where
  pure := Run.ret
  bind := Run.andThen

/-- The read `rom[off]` of one byte of the buffer. -/
def readByte (rom : List Nat) (off : Nat) : Run Nat :=
  ⟨[.read off], match rom[off]? with
    | some b => .ok b
    | none => .fault (.romOob off)⟩

/-- The write `rom[off] = v` of one byte of the buffer. -/
def writeByte (rom : List Nat) (off v : Nat) : Run (List Nat) :=
  ⟨[.write off], if off < rom.length then .ok (rom.set off v) else .fault (.romOob off)⟩

/-! ## Constants of the source -/

/-- Value of `#define BANK_LENGTH`. -/
def BANK_LENGTH : Nat := 0x2000

/-- Value of `#define BANK_LOAD_ADDRESS`. -/
def BANK_LOAD_ADDRESS : Nat := 0x6000

/-- Byte offsets of the fields of `romHeader` that the code uses. All members
are bytes except `entryAddress` (two bytes, at the even offset 2), so the
structure has no padding and is 32 bytes long. -/
structure romHeader where
  unk : Nat := 4
  system : Nat := 5
  gameId : Nat := 26
  securityCode : Nat := 28

/-- The layout of `romHeader`. -/
def hdr : romHeader := {}

/-- The table `securityTable[16][9]`: per row three (bank, address high,
address low) triples. -/
def securityTable : List (List Nat) :=
  [ [0x01, 0x73, 0xE4, 0x02, 0x77, 0x57, 0x03, 0x66, 0x66],
    [0x00, 0x72, 0x45, 0x01, 0x75, 0x05, 0x02, 0x67, 0x07],
    [0x01, 0x62, 0x67, 0x03, 0x63, 0x5A, 0x03, 0x7A, 0xBC],
    [0x00, 0x7A, 0xC2, 0x01, 0x76, 0xBB, 0x04, 0x64, 0xE3],
    [0x02, 0x6F, 0x27, 0x02, 0x76, 0xE1, 0x03, 0x7F, 0xDB],
    [0x00, 0x68, 0xA7, 0x03, 0x6B, 0x41, 0x02, 0x76, 0x73],
    [0x00, 0x62, 0x45, 0x01, 0x73, 0xBE, 0x04, 0x6B, 0x6F],
    [0x00, 0x77, 0x43, 0x02, 0x7F, 0x7E, 0x03, 0x63, 0x76],
    [0x01, 0x68, 0x75, 0x01, 0x77, 0x64, 0x02, 0x6F, 0xD0],
    [0x01, 0x63, 0x0F, 0x02, 0x64, 0xE7, 0x03, 0x67, 0xB1],
    [0x01, 0x62, 0x09, 0x01, 0x74, 0xF1, 0x01, 0x7A, 0xA8],
    [0x01, 0x60, 0x0D, 0x01, 0x73, 0xC9, 0x03, 0x63, 0xEC],
    [0x01, 0x79, 0xA7, 0x02, 0x7F, 0x4B, 0x03, 0x60, 0x78],
    [0x00, 0x73, 0x27, 0x01, 0x62, 0x4C, 0x03, 0x70, 0x86],
    [0x01, 0x69, 0x03, 0x02, 0x6F, 0x72, 0x03, 0x66, 0x00],
    [0x00, 0x71, 0x08, 0x01, 0x7A, 0xBB, 0x02, 0x79, 0x0A] ]

/-- The ten bytes of the C string literal `"TigerDMGC"`, its terminating zero
included. -/
def tigerLiteral : List Nat :=
  [0x54, 0x69, 0x67, 0x65, 0x72, 0x44, 0x4D, 0x47, 0x43, 0x00]

/-! ## The code -/

/-- The assignment `tabPtr = securityTable[n]`: the row the pointer is set to. -/
def tableRow (n : Nat) : Run (List Nat) :=
  ⟨[.row n], match securityTable[n]? with
    | some r => .ok r
    | none => .fault (.tableOob n)⟩

/-- The expression
`(tabPtr[0] * BANK_LENGTH) + (((tabPtr[1] << 8) | tabPtr[2]) - BANK_LOAD_ADDRESS)`
assigned to the `uint32_t offset`: evaluated in `int`, then reduced modulo
`2^32`. -/
def calcOffset (t0 t1 t2 : Nat) : Nat :=
  ((((t0 * BANK_LENGTH : Nat) : Int)
      + ((((t1 <<< 8) ||| t2 : Nat) : Int) - (BANK_LOAD_ADDRESS : Int))) % (2 ^ 32 : Int)).toNat

/-- The checksum loop shared by `securityCheck` (lines 76-81) and
`securityFix` (lines 121-126): `n` iterations are left, `tabPtr` is what the
pointer still has ahead of it in its row, `base` is how far `rom` was advanced. -/
def sumLoop (rom : List Nat) (base : Nat) : Nat → List Nat → Nat → Run Nat
  | 0, _, accum => pure accum
  | n + 1, t0 :: t1 :: t2 :: rest, accum => do
      let b ← readByte rom (base + calcOffset t0 t1 t2)
      sumLoop rom base n rest ((accum + b) % 256)
  | _ + 1, _, _ => ⟨[], .fault (.tableOob 16)⟩

/-- The test `*rom == 0 || *rom == 0xff`; the second operand is evaluated only
when the first is false. -/
def firstByteTest (rom : List Nat) : Run Bool := do
  let b ← readByte rom 0
  if b == 0 then pure true
  else do
    let b2 ← readByte rom 0
    pure (b2 == 0xff)

/-- The C library function `strncmp(s1, s2, n)`, with `s1` at offset `p` of the
buffer and `s2` a literal: bytes are compared as unsigned char until they
differ, a zero byte has been compared, or `n` bytes are done. -/
def strncmp (rom : List Nat) : Nat → List Nat → Nat → Run Int
  | _, _, 0 => pure 0
  | _, [], _ + 1 => ⟨[], .fault .literalOob⟩
  | p, c2 :: lit, n + 1 => do
      let c1 ← readByte rom p
      if c1 != c2 then pure ((c1 : Int) - (c2 : Int))
      else if c1 == 0 then pure 0
      else strncmp rom (p + 1) lit n

/-- The function `securityCheck(rom)`. -/
def securityCheck (rom : List Nat) : Run Bool := do
  let skip ← firstByteTest rom
  let base := if skip then 0x40000 else 0
  let g0 ← readByte rom (base + hdr.gameId)
  let g1 ← readByte rom (base + hdr.gameId + 1)
  let sc ← readByte rom (base + hdr.securityCode)
  if ((g0 + g1) ^^^ 0xa5) != sc then pure false
  else do
    let c ← strncmp rom (base + hdr.system) tigerLiteral 9
    if c != 0 then pure false
    else do
      let unk ← readByte rom (base + hdr.unk)
      -- `hdr->unk & 1 == 0` is `hdr->unk & (1 == 0)` in C
      if (unk &&& (if (1 : Nat) == 0 then 1 else 0)) != 0 then pure false
      else do
        let tabPtr ← tableRow (sc &&& 0xf)
        let accum ← sumLoop rom base 3 tabPtr 0
        pure (accum == 0x5a)

/-- The search loop of `securityFix` (lines 108-134), entered with loop counter
`i`; the result is the value of `match` after the loop. The counter is a
`uint8_t`, so both increments wrap modulo 256. Each unit of fuel pays for one
evaluation of the loop condition; 17 are enough from `i = 0` (`fixLoop_total`). -/
def fixLoop (rom : List Nat) (base length : Nat) : Nat → Nat → Run Nat
  | 0, _ => ⟨[], .fault .fuel⟩
  | fuel + 1, i =>
      if i < 16 then
        let i1 := if length == 0x8000 then (if i == 3 || i == 6 then (i + 1) % 256 else i) else i
        do
          let tabPtr ← tableRow i1
          let accum ← sumLoop rom base 3 tabPtr 0
          if accum == 0x5a then pure i1
          else fixLoop rom base length fuel ((i1 + 1) % 256)
      else pure 0xff

/-- The function `securityFix(rom, length)`: the returned flag and the buffer
as the call leaves it. -/
def securityFix (rom : List Nat) (length : Nat) : Run (Bool × List Nat) :=
  if length < 0x8000 then pure (false, rom)
  else do
    let skip ← firstByteTest rom
    let base := if skip && decide (length > 0x8000) then 0x40000 else 0
    let m ← fixLoop rom base length 17 0
    if m == 0xff then pure (false, rom)
    else do
      let rom1 ← writeByte rom (base + hdr.gameId) ((m ^^^ 0xa5) % 256)
      let rom2 ← writeByte rom1 (base + hdr.gameId + 1) 0
      let rom3 ← writeByte rom2 (base + hdr.securityCode) m
      pure (true, rom3)

/-! ## Vocabulary of the statements -/

/-- The flat offset the code computes from triple `k` (0, 1 or 2) of row `n` of
the table. -/
def tableOffset (n k : Nat) : Nat :=
  match securityTable[n]? with
  | some r => calcOffset (r.getD (3 * k) 0) (r.getD (3 * k + 1) 0) (r.getD (3 * k + 2) 0)
  | none => 0

/-- The checksum of row `n` as the specification words it: the sum modulo 256
of the three bytes the row addresses, counted from `base`; `none` when one of
the three lies outside the buffer. -/
def rowChecksum (rom : List Nat) (base n : Nat) : Option Nat :=
  match rom[base + tableOffset n 0]?, rom[base + tableOffset n 1]?,
      rom[base + tableOffset n 2]? with
  | some b0, some b1, some b2 => some ((b0 + b1 + b2) % 256)
  | _, _, _ => none

/-- The rows the search of `securityFix` passes over: 3 and 6, for a length of
exactly 0x8000. -/
def skipped (length n : Nat) : Prop := length = 0x8000 ∧ (n = 3 ∨ n = 6)

instance (length n : Nat) : Decidable (skipped length n) := by
  unfold skipped; infer_instance

/-- The header offset of `securityCheck`: 0x40000 when the first byte is 0x00
or 0xFF, and 0 otherwise. -/
def checkBase (rom : List Nat) : Nat :=
  if rom[0]? = some 0 ∨ rom[0]? = some 0xff then 0x40000 else 0

/-- The header offset of `securityFix`: 0x40000 when the first byte is 0x00 or
0xFF and the length is above 0x8000, and 0 otherwise. -/
def fixBase (rom : List Nat) (length : Nat) : Nat :=
  if (rom[0]? = some 0 ∨ rom[0]? = some 0xff) ∧ length > 0x8000 then 0x40000 else 0

/-- The nine bytes of the header's `system` field, for a header at `base`
(fewer when the buffer ends early). -/
def systemField (rom : List Nat) (base : Nat) : List Nat :=
  (rom.drop (base + hdr.system)).take 9

/-- The nine ASCII bytes of `TigerDMGC`. -/
def tigerTag : List Nat := tigerLiteral.take 9

/-- The row the loop body evaluates when entered with counter `i`. -/
def rowAt (length i : Nat) : Nat := if skipped length i then i + 1 else i

/-- The buffer `securityFix` leaves on a match of row `m` with the header at `base`. -/
def patched (rom : List Nat) (base m : Nat) : List Nat :=
  ((rom.set (base + 26) ((m ^^^ 0xa5) % 256)).set (base + 27) 0).set (base + 28) m

/-- A buffer of `n` bytes: the listed (offset, value) pairs, and zero elsewhere. -/
def image (n : Nat) (ws : List (Nat × Nat)) : List Nat :=
  (List.range n).map fun i => (ws.lookup i).getD 0

/-- An access lies inside a buffer of `size` bytes, or selects one of the 16
rows of the table. -/
def Event.within (size : Nat) : Event → Prop
  | .row n => n < 16
  | .read off => off < size
  | .write off => off < size

/-- The (offset, value) pairs of the tag `TigerDMGC` in the `system` field of a
header at `base`. -/
def tagAt (base : Nat) : List (Nat × Nat) :=
  [(base + 5, 0x54), (base + 6, 0x69), (base + 7, 0x67), (base + 8, 0x65), (base + 9, 0x72),
   (base + 10, 0x44), (base + 11, 0x4D), (base + 12, 0x47), (base + 13, 0x43)]

/-- A 32 KB buffer, first byte 1, no system tag, in which the bytes of row 0 sum to 0x5A. -/
def imgNoTag : List Nat := image 0x8000 [(0, 1), (0x33E4, 0x5A)]

/-- A 32 KB buffer, first byte 0, with the system tag at offset 5, in which the
bytes of row 0 sum to 0x5A. -/
def imgZeroFirst : List Nat := image 0x8000 (tagAt 0 ++ [(0x33E4, 0x5A)])

/-- A 32 KB buffer, first byte 1, with the system tag, in which the bytes of row
0 sum to 0x5A; the game ID and the security code are still zero. -/
def imgTagged : List Nat := image 0x8000 ((0, 1) :: tagAt 0 ++ [(0x33E4, 0x5A)])

/-- A 32 KB buffer with a complete header for row 0: game ID (0xA5, 0), security
code 0, the system tag, `unk` = 1, and the bytes of row 0 summing to 0x5A. -/
def imgValid : List Nat :=
  image 0x8000 ((0, 1) :: (4, 1) :: tagAt 0 ++ [(26, 0xa5), (0x33E4, 0x5A)])

/-- The buffer `imgValid` with the `unk` byte 0: bit 0 is clear. -/
def imgUnkClear : List Nat :=
  image 0x8000 ((0, 1) :: (4, 0) :: tagAt 0 ++ [(26, 0xa5), (0x33E4, 0x5A)])

/-- A 32 KB buffer, first byte 1, all other bytes zero: no row sums to 0x5A. -/
def imgNoMatch : List Nat := image 0x8000 [(0, 1)]

/-- A buffer of 0x48000 bytes, first byte 0, with a complete header for row 0
at 0x40000; the bytes row 0 addresses from 0x40000 sum to 0x5A, the bytes it
addresses from 0 sum to 0. -/
def imgBanked : List Nat :=
  image 0x48000 ((0x40004, 1) :: tagAt 0x40000 ++ [(0x4001A, 0xa5), (0x433E4, 0x5A)])

/-- A 32 KB buffer with a complete header whose security code is 0x10: game ID
(0xB5, 0), the system tag, and the bytes of row 0 summing to 0x5A. -/
def imgHighCode : List Nat :=
  image 0x8000 ((0, 1) :: (4, 1) :: tagAt 0 ++ [(26, 0xb5), (28, 0x10), (0x33E4, 0x5A)])

/-- The buffer `imgValid` with a zero byte in place of the `D` of the system tag. -/
def imgTagZero : List Nat :=
  image 0x8000 ([(0, 1), (4, 1), (5, 0x54), (6, 0x69), (7, 0x67), (8, 0x65), (9, 0x72),
    (10, 0x00), (11, 0x4D), (12, 0x47), (13, 0x43), (26, 0xa5), (0x33E4, 0x5A)])

/-- A buffer of 0x8001 bytes, first byte 1, all other bytes zero. -/
def imgOneOver : List Nat := image 0x8001 [(0, 1)]

/-- The buffer `imgValid` with game ID (0xFF, 0xFF): the two bytes sum to 510. -/
def imgWideId : List Nat :=
  image 0x8000 ((0, 1) :: (4, 1) :: tagAt 0 ++ [(26, 0xff), (27, 0xff), (0x33E4, 0x5A)])

/-- A buffer of 0x48000 bytes, first byte 1, with a complete header for row 0 at
offset 0. -/
def imgLong : List Nat :=
  image 0x48000 ((0, 1) :: (4, 1) :: tagAt 0 ++ [(26, 0xa5), (0x33E4, 0x5A)])

/-- A buffer of 0x8001 bytes, first byte 1, with the system tag, in which only
the bytes of row 4 sum to 0x5A. -/
def imgRowFour : List Nat := image 0x8001 ((0, 1) :: tagAt 0 ++ [(0x4F27, 0x5A)])

/-- A buffer is made of bytes. -/
def isBytes (rom : List Nat) : Prop := ∀ b, b ∈ rom → b < 256

/-! ## Runs: basic facts -/

theorem bind_eq {α β : Type} (x : Run α) (f : α → Run β) : (x >>= f) = Run.andThen x f := rfl

theorem pure_eq {α : Type} (a : α) : (pure a : Run α) = Run.ret a := rfl

theorem andThen_out_ok {α β : Type} (x : Run α) (f : α → Run β) (b : β) :
    (Run.andThen x f).out = .ok b ↔ ∃ a, x.out = .ok a ∧ (f a).out = .ok b := by
  unfold Run.andThen
  cases h : x.out with
  | ok a => simp
  | fault e => simp

theorem andThen_of_ok {α β : Type} {x : Run α} {a : α} (f : α → Run β) (h : x.out = .ok a) :
    Run.andThen x f = ⟨x.log ++ (f a).log, (f a).out⟩ := by
  unfold Run.andThen; rw [h]

theorem andThen_of_fault {α β : Type} {x : Run α} {e : Fault} (f : α → Run β)
    (h : x.out = .fault e) : Run.andThen x f = ⟨x.log, .fault e⟩ := by
  unfold Run.andThen; rw [h]

theorem mem_andThen_log {α β : Type} {x : Run α} {f : α → Run β} {e : Event}
    (h : e ∈ (Run.andThen x f).log) : e ∈ x.log ∨ ∃ a, x.out = .ok a ∧ e ∈ (f a).log := by
  unfold Run.andThen at h
  cases hx : x.out with
  | ok a =>
    rw [hx] at h
    simp only [List.mem_append] at h
    rcases h with h | h
    · exact Or.inl h
    · exact Or.inr ⟨a, rfl, h⟩
  | fault e0 =>
    rw [hx] at h
    exact Or.inl h

theorem readByte_out (rom : List Nat) (off b : Nat) :
    (readByte rom off).out = .ok b ↔ rom[off]? = some b := by
  unfold readByte
  cases h : rom[off]? <;> simp

theorem readByte_log (rom : List Nat) (off : Nat) : (readByte rom off).log = [.read off] := rfl

theorem readByte_of_get {rom : List Nat} {off b : Nat} (h : rom[off]? = some b) :
    readByte rom off = ⟨[.read off], .ok b⟩ := by
  unfold readByte; rw [h]

theorem tableRow_of_lt {n : Nat} (h : n < 16) :
    tableRow n = ⟨[.row n], .ok (securityTable.getD n [])⟩ := by
  unfold tableRow
  interval_cases n <;> rfl

/-! ## The checksum loop -/

theorem sumLoop_three (rom : List Nat) (base t0 t1 t2 t3 t4 t5 t6 t7 t8 : Nat) :
    sumLoop rom base 3 [t0, t1, t2, t3, t4, t5, t6, t7, t8] 0
      = Run.andThen (readByte rom (base + calcOffset t0 t1 t2)) fun b0 =>
        Run.andThen (readByte rom (base + calcOffset t3 t4 t5)) fun b1 =>
        Run.andThen (readByte rom (base + calcOffset t6 t7 t8)) fun b2 =>
        Run.ret ((((0 + b0) % 256 + b1) % 256 + b2) % 256) := rfl

theorem sumLoop_row (rom : List Nat) (base : Nat) {n : Nat} (h : n < 16) :
    sumLoop rom base 3 (securityTable.getD n []) 0
      = Run.andThen (readByte rom (base + tableOffset n 0)) fun b0 =>
        Run.andThen (readByte rom (base + tableOffset n 1)) fun b1 =>
        Run.andThen (readByte rom (base + tableOffset n 2)) fun b2 =>
        Run.ret ((((0 + b0) % 256 + b1) % 256 + b2) % 256) := by
  interval_cases n <;> exact sumLoop_three rom base _ _ _ _ _ _ _ _ _

theorem sumLoop_row_out (rom : List Nat) (base : Nat) {n : Nat} (h : n < 16) (s : Nat) :
    (sumLoop rom base 3 (securityTable.getD n []) 0).out = .ok s
      ↔ rowChecksum rom base n = some s := by
  rw [sumLoop_row rom base h]
  simp only [andThen_out_ok, readByte_out, Run.ret]
  unfold rowChecksum
  constructor
  · rintro ⟨b0, h0, b1, h1, b2, h2, hs⟩
    rw [h0, h1, h2]
    simp only [Outcome.ok.injEq] at hs
    simp only [Option.some.injEq]
    omega
  · intro hc
    cases h0 : rom[base + tableOffset n 0]? with
    | none => simp [h0] at hc
    | some b0 =>
      cases h1 : rom[base + tableOffset n 1]? with
      | none => simp [h0, h1] at hc
      | some b1 =>
        cases h2 : rom[base + tableOffset n 2]? with
        | none => simp [h0, h1, h2] at hc
        | some b2 =>
          simp only [h0, h1, h2, Option.some.injEq] at hc
          refine ⟨b0, rfl, b1, rfl, b2, rfl, ?_⟩
          simp only [Outcome.ok.injEq]
          omega

theorem sumLoop_row_log (rom : List Nat) (base : Nat) {n : Nat} (h : n < 16) {e : Event}
    (he : e ∈ (sumLoop rom base 3 (securityTable.getD n []) 0).log) :
    ∃ k, k < 3 ∧ e = .read (base + tableOffset n k) := by
  rw [sumLoop_row rom base h] at he
  rcases mem_andThen_log he with he | ⟨b0, -, he⟩
  · exact ⟨0, by omega, by simpa [readByte_log] using he⟩
  rcases mem_andThen_log he with he | ⟨b1, -, he⟩
  · exact ⟨1, by omega, by simpa [readByte_log] using he⟩
  rcases mem_andThen_log he with he | ⟨b2, -, he⟩
  · exact ⟨2, by omega, by simpa [readByte_log] using he⟩
  · simp [Run.ret] at he

theorem get_of_lt {rom : List Nat} {i : Nat} (h : i < rom.length) : ∃ b, rom[i]? = some b :=
  ⟨rom.get ⟨i, h⟩, List.getElem?_eq_getElem h⟩

theorem sumLoop_row_total (rom : List Nat) (base : Nat) {n : Nat} (h : n < 16)
    (hb : ∀ k, k < 3 → base + tableOffset n k < rom.length) :
    ∃ s, (sumLoop rom base 3 (securityTable.getD n []) 0).out = .ok s := by
  obtain ⟨b0, h0⟩ := get_of_lt (hb 0 (by omega))
  obtain ⟨b1, h1⟩ := get_of_lt (hb 1 (by omega))
  obtain ⟨b2, h2⟩ := get_of_lt (hb 2 (by omega))
  refine ⟨(b0 + b1 + b2) % 256, ?_⟩
  rw [sumLoop_row_out rom base h]
  unfold rowChecksum
  rw [h0, h1, h2]

/-! ## The search loop of `securityFix` -/

theorem rowAt_facts (length : Nat) {i : Nat} (hi : i < 16) :
    rowAt length i < 16 ∧ ¬ skipped length (rowAt length i) ∧ i ≤ rowAt length i
      ∧ ∀ j, i ≤ j → j < rowAt length i → skipped length j := by
  unfold rowAt
  by_cases hs : skipped length i
  · rw [if_pos hs]
    unfold skipped at hs ⊢
    refine ⟨by omega, by omega, by omega, ?_⟩
    intro j h1 h2
    have : j = i := by omega
    subst this
    exact hs
  · rw [if_neg hs]
    exact ⟨hi, hs, le_refl _, fun j h1 h2 => absurd h1 (by omega)⟩

theorem fixLoop_succ (rom : List Nat) (base length fuel : Nat) {i : Nat} (hi : i < 16) :
    fixLoop rom base length (fuel + 1) i
      = Run.andThen (tableRow (rowAt length i)) fun tabPtr =>
        Run.andThen (sumLoop rom base 3 tabPtr 0) fun accum =>
        if accum == 0x5a then Run.ret (rowAt length i)
        else fixLoop rom base length fuel (rowAt length i + 1) := by
  have hrow : (if length == 0x8000 then (if i == 3 || i == 6 then (i + 1) % 256 else i) else i)
      = rowAt length i := by
    unfold rowAt skipped
    by_cases hl : length = 0x8000
    · by_cases h3 : i = 3
      · subst hl h3; rfl
      · by_cases h6 : i = 6
        · subst hl h6; rfl
        · have : ¬ (length = 0x8000 ∧ (i = 3 ∨ i = 6)) := by omega
          simp [hl, h3, h6]
    · have : ¬ (length = 0x8000 ∧ (i = 3 ∨ i = 6)) := by omega
      simp [hl]
  have hmod : (rowAt length i + 1) % 256 = rowAt length i + 1 := by
    have := (rowAt_facts length hi).1
    omega
  rw [fixLoop]
  simp only [hi, if_true, hrow, hmod]
  rfl

theorem fixLoop_ge (rom : List Nat) (base length fuel : Nat) {i : Nat} (hi : ¬ i < 16) :
    fixLoop rom base length (fuel + 1) i = Run.ret 0xff := by
  rw [fixLoop]
  simp only [hi, if_false]
  rfl

/-- What the value of `match` after the loop says about the rows from `i` on. -/
theorem fixLoop_ok (rom : List Nat) (base length : Nat) :
    ∀ fuel i m, (fixLoop rom base length fuel i).out = .ok m →
      (m = 0xff ∧ ∀ j, i ≤ j → j < 16 → ¬ skipped length j →
          ∃ s, rowChecksum rom base j = some s ∧ s ≠ 0x5a)
      ∨ (m < 16 ∧ i ≤ m ∧ ¬ skipped length m ∧ rowChecksum rom base m = some 0x5a
          ∧ ∀ j, i ≤ j → j < m → ¬ skipped length j →
              ∃ s, rowChecksum rom base j = some s ∧ s ≠ 0x5a) := by
  intro fuel
  induction fuel with
  | zero => intro i m h; simp [fixLoop] at h
  | succ fuel ih =>
    intro i m h
    by_cases hi : i < 16
    · obtain ⟨hr16, hrs, hir, hbelow⟩ := rowAt_facts length hi
      rw [fixLoop_succ rom base length fuel hi, tableRow_of_lt hr16] at h
      rw [andThen_out_ok] at h
      obtain ⟨tabPtr, ht, h⟩ := h
      simp only [Outcome.ok.injEq] at ht
      subst ht
      rw [andThen_out_ok] at h
      obtain ⟨accum, hsum, h⟩ := h
      rw [sumLoop_row_out rom base hr16] at hsum
      by_cases ha : accum = 0x5a
      · subst ha
        simp only [beq_self_eq_true, if_true, Run.ret, Outcome.ok.injEq] at h
        subst h
        refine Or.inr ⟨hr16, hir, hrs, hsum, ?_⟩
        intro j h1 h2 h3
        exact absurd (hbelow j h1 h2) h3
      · have hne : (accum == 0x5a) = false := by simpa using ha
        rw [hne] at h
        simp only [Bool.false_eq_true, if_false] at h
        have hstep : ∀ j, i ≤ j → j < rowAt length i + 1 → ¬ skipped length j →
            ∃ s, rowChecksum rom base j = some s ∧ s ≠ 0x5a := by
          intro j h1 h2 h3
          by_cases hj : j < rowAt length i
          · exact absurd (hbelow j h1 hj) h3
          · have : j = rowAt length i := by omega
            subst this
            exact ⟨accum, hsum, ha⟩
        rcases ih _ m h with ⟨hm, hall⟩ | ⟨hm, hle, hms, hck, hall⟩
        · refine Or.inl ⟨hm, ?_⟩
          intro j h1 h2 h3
          by_cases hj : j < rowAt length i + 1
          · exact hstep j h1 hj h3
          · exact hall j (by omega) h2 h3
        · refine Or.inr ⟨hm, by omega, hms, hck, ?_⟩
          intro j h1 h2 h3
          by_cases hj : j < rowAt length i + 1
          · exact hstep j h1 hj h3
          · exact hall j (by omega) h2 h3
    · rw [fixLoop_ge rom base length fuel hi] at h
      simp only [Run.ret, Outcome.ok.injEq] at h
      exact Or.inl ⟨h.symm, fun j h1 h2 => absurd h2 (by omega)⟩

/-- Every step the loop logs is the selection of a row that is not passed
over, or a read of a byte such a row addresses. -/
theorem fixLoop_log (rom : List Nat) (base length : Nat) :
    ∀ fuel i e, e ∈ (fixLoop rom base length fuel i).log →
      (∃ n, e = .row n ∧ n < 16 ∧ ¬ skipped length n)
      ∨ (∃ n k, e = .read (base + tableOffset n k) ∧ n < 16 ∧ ¬ skipped length n ∧ k < 3) := by
  intro fuel
  induction fuel with
  | zero => intro i e h; simp [fixLoop] at h
  | succ fuel ih =>
    intro i e h
    by_cases hi : i < 16
    · obtain ⟨hr16, hrs, -, -⟩ := rowAt_facts length hi
      rw [fixLoop_succ rom base length fuel hi, tableRow_of_lt hr16] at h
      rcases mem_andThen_log h with h | ⟨tabPtr, ht, h⟩
      · simp only [List.mem_singleton] at h
        exact Or.inl ⟨_, h, hr16, hrs⟩
      simp only [Outcome.ok.injEq] at ht
      subst ht
      rcases mem_andThen_log h with h | ⟨accum, -, h⟩
      · obtain ⟨k, hk, he⟩ := sumLoop_row_log rom base hr16 h
        exact Or.inr ⟨_, k, he, hr16, hrs, hk⟩
      by_cases ha : (accum == 0x5a) = true
      · rw [ha] at h
        simp [Run.ret] at h
      · simp only [ha, if_false] at h
        exact ih _ e h
    · rw [fixLoop_ge rom base length fuel hi] at h
      simp [Run.ret] at h

/-- With fuel for the rows that are left and every byte of every evaluated row
inside the buffer, the loop ends with a value of `match`. -/
theorem fixLoop_total (rom : List Nat) (base length : Nat)
    (hb : ∀ n, n < 16 → ¬ skipped length n → ∀ k, k < 3 → base + tableOffset n k < rom.length) :
    ∀ fuel i, 16 ≤ fuel + i → ∃ m, (fixLoop rom base length (fuel + 1) i).out = .ok m := by
  intro fuel
  induction fuel with
  | zero =>
    intro i h
    have hi : ¬ i < 16 := by omega
    exact ⟨0xff, by rw [fixLoop_ge rom base length 0 hi]; rfl⟩
  | succ fuel ih =>
    intro i h
    by_cases hi : i < 16
    · obtain ⟨hr16, hrs, hir, -⟩ := rowAt_facts length hi
      rw [fixLoop_succ rom base length (fuel + 1) hi, tableRow_of_lt hr16]
      obtain ⟨accum, hsum⟩ := sumLoop_row_total rom base hr16 (hb _ hr16 hrs)
      rw [andThen_of_ok _ rfl, andThen_of_ok _ hsum]
      by_cases ha : (accum == 0x5a) = true
      · exact ⟨rowAt length i, by simp only [ha, if_true, Run.ret]⟩
      · obtain ⟨m, hm⟩ := ih (rowAt length i + 1) (by omega)
        exact ⟨m, by simp only [ha, if_false]; exact hm⟩
    · exact ⟨0xff, by rw [fixLoop_ge rom base length (fuel + 1) hi]; rfl⟩

/-! ## The header location and the two functions as a whole -/

theorem firstByteTest_out (rom : List Nat) (b : Bool) :
    (firstByteTest rom).out = .ok b
      ↔ ∃ v, rom[0]? = some v ∧ b = (v == 0 || v == 0xff) := by
  unfold firstByteTest
  simp only [bind_eq, pure_eq, andThen_out_ok, readByte_out]
  constructor
  · rintro ⟨v, hv, h⟩
    refine ⟨v, hv, ?_⟩
    cases h0 : (v == 0)
    · simp only [h0, Bool.false_eq_true, if_false, andThen_out_ok, readByte_out, Run.ret,
        Outcome.ok.injEq] at h
      obtain ⟨v2, hv2, h⟩ := h
      rw [hv] at hv2
      simp only [Option.some.injEq] at hv2
      subst hv2
      simp [← h]
    · simp only [h0, if_true, Run.ret, Outcome.ok.injEq] at h
      simp [← h]
  · rintro ⟨v, hv, h⟩
    refine ⟨v, hv, ?_⟩
    cases h0 : (v == 0)
    · simp only [Bool.false_eq_true, if_false, andThen_out_ok, readByte_out, Run.ret,
        Outcome.ok.injEq]
      exact ⟨v, hv, by simp [h0, h]⟩
    · simp [h0, h, Run.ret]

theorem firstByteTest_log (rom : List Nat) {e : Event} (h : e ∈ (firstByteTest rom).log) :
    e = .read 0 := by
  unfold firstByteTest at h
  simp only [bind_eq, pure_eq] at h
  rcases mem_andThen_log h with h | ⟨v, -, h⟩
  · simpa [readByte_log] using h
  cases h0 : (v == 0)
  · simp only [h0, Bool.false_eq_true, if_false] at h
    rcases mem_andThen_log h with h | ⟨v2, -, h⟩
    · simpa [readByte_log] using h
    · simp [Run.ret] at h
  · simp [h0, Run.ret] at h

theorem checkBase_eq {rom : List Nat} {v : Nat} (hv : rom[0]? = some v) :
    (if (v == 0 || v == 0xff) = true then 0x40000 else 0) = checkBase rom := by
  unfold checkBase
  rw [hv]
  simp

theorem fixBase_eq {rom : List Nat} {v : Nat} (hv : rom[0]? = some v) (length : Nat) :
    (if ((v == 0 || v == 0xff) && decide (length > 0x8000)) = true then 0x40000 else 0)
      = fixBase rom length := by
  unfold fixBase
  rw [hv]
  simp

theorem writeByte_out (rom : List Nat) (off v : Nat) (r : List Nat) :
    (writeByte rom off v).out = .ok r ↔ off < rom.length ∧ r = rom.set off v := by
  unfold writeByte
  by_cases h : off < rom.length
  · simp only [h, if_true, Outcome.ok.injEq, true_and]
    exact eq_comm
  · simp [h]

/-- A run of `securityFix` that returns, taken apart: the first byte was read,
the loop ended with a value of `match`, and either that is 0xFF and the buffer
is returned as it was, or the three header bytes were written. -/
theorem securityFix_ok {rom : List Nat} {length : Nat} {b : Bool} {r : List Nat}
    (hlen : 0x8000 ≤ length) (h : (securityFix rom length).out = .ok (b, r)) :
    ∃ v m, rom[0]? = some v ∧ (fixLoop rom (fixBase rom length) length 17 0).out = .ok m
      ∧ ((m = 0xff ∧ b = false ∧ r = rom)
        ∨ (m ≠ 0xff ∧ b = true ∧ fixBase rom length + 28 < rom.length
            ∧ r = patched rom (fixBase rom length) m)) := by
  unfold securityFix at h
  have hl : ¬ length < 0x8000 := by omega
  simp only [hl, if_false, bind_eq, pure_eq, andThen_out_ok] at h
  obtain ⟨skip, hskip, m, hm, h⟩ := h
  obtain ⟨v, hv, hsk⟩ := (firstByteTest_out rom skip).1 hskip
  subst hsk
  rw [fixBase_eq hv length] at hm h
  refine ⟨v, m, hv, hm, ?_⟩
  cases hff : (m == 0xff)
  · simp only [hff, Bool.false_eq_true, if_false, andThen_out_ok, writeByte_out, Run.ret,
      Outcome.ok.injEq, Prod.mk.injEq] at h
    obtain ⟨r1, ⟨-, hr1⟩, r2, ⟨-, hr2⟩, r3, ⟨h3, hr3⟩, hb, hr⟩ := h
    subst hr1 hr2 hr3
    simp only [List.length_set] at h3
    refine Or.inr ⟨by simpa using hff, hb.symm, ?_, ?_⟩
    · simpa [hdr] using h3
    · rw [← hr]
      simp [patched, hdr]
  · simp only [hff, if_true, Run.ret, Outcome.ok.injEq, Prod.mk.injEq] at h
    exact Or.inl ⟨by simpa using hff, h.1.symm, h.2.symm⟩

/-- Every step `securityFix` logs. -/
theorem securityFix_log {rom : List Nat} {length : Nat} {e : Event}
    (h : e ∈ (securityFix rom length).log) :
    0x8000 ≤ length ∧ (e = .read 0
      ∨ (∃ n, e = .row n ∧ n < 16 ∧ ¬ skipped length n)
      ∨ (∃ n k, e = .read (fixBase rom length + tableOffset n k) ∧ n < 16
          ∧ ¬ skipped length n ∧ k < 3)
      ∨ e = .write (fixBase rom length + 26) ∨ e = .write (fixBase rom length + 27)
      ∨ e = .write (fixBase rom length + 28)) := by
  unfold securityFix at h
  by_cases hl : length < 0x8000
  · simp [hl, pure_eq, Run.ret] at h
  refine ⟨by omega, ?_⟩
  simp only [hl, if_false, bind_eq, pure_eq] at h
  rcases mem_andThen_log h with h | ⟨skip, hskip, h⟩
  · exact Or.inl (firstByteTest_log rom h)
  obtain ⟨v, hv, hsk⟩ := (firstByteTest_out rom skip).1 hskip
  subst hsk
  rw [fixBase_eq hv length] at h
  rcases mem_andThen_log h with h | ⟨m, -, h⟩
  · rcases fixLoop_log rom _ length 17 0 e h with h | h
    · exact Or.inr (Or.inl h)
    · exact Or.inr (Or.inr (Or.inl h))
  cases hff : (m == 0xff)
  swap
  · simp [hff, Run.ret] at h
  simp only [hff, Bool.false_eq_true, if_false] at h
  rcases mem_andThen_log h with h | ⟨r1, -, h⟩
  · simp only [writeByte, hdr, List.mem_singleton] at h
    exact Or.inr (Or.inr (Or.inr (Or.inl h)))
  rcases mem_andThen_log h with h | ⟨r2, -, h⟩
  · simp only [writeByte, hdr, List.mem_singleton] at h
    exact Or.inr (Or.inr (Or.inr (Or.inr (Or.inl h))))
  rcases mem_andThen_log h with h | ⟨r3, -, h⟩
  · simp only [writeByte, hdr, List.mem_singleton] at h
    exact Or.inr (Or.inr (Or.inr (Or.inr (Or.inr h))))
  · simp [Run.ret] at h

/-! ## `securityCheck` on a header whose fields are known -/

theorem strncmp_same (rom : List Nat) :
    ∀ n lit p, (∀ k, k < n → ∃ c, lit[k]? = some c ∧ c ≠ 0 ∧ rom[p + k]? = some c) →
      (strncmp rom p lit n).out = .ok 0 := by
  intro n
  induction n with
  | zero => intro lit p _; cases lit <;> rfl
  | succ n ih =>
    intro lit p h
    obtain ⟨c, hc, hc0, hr⟩ := h 0 (by omega)
    cases lit with
    | nil => simp at hc
    | cons c2 lit =>
      simp only [List.getElem?_cons_zero, Option.some.injEq] at hc
      subst hc
      rw [strncmp, bind_eq, andThen_of_ok _ ((readByte_out rom p c2).2 (by simpa using hr))]
      have h1 : (c2 != c2) = false := by simp
      have h2 : (c2 == 0) = false := by simpa using hc0
      simp only [h1, h2, Bool.false_eq_true, if_false]
      apply ih
      intro k hk
      obtain ⟨c, hc, hc0, hr⟩ := h (k + 1) (by omega)
      refine ⟨c, by simpa using hc, hc0, ?_⟩
      rw [← hr]
      congr 1
      omega

theorem systemField_get {rom : List Nat} {base : Nat} (h : systemField rom base = tigerTag)
    {k : Nat} (hk : k < 9) :
    ∃ c, tigerLiteral[k]? = some c ∧ c ≠ 0 ∧ rom[base + hdr.system + k]? = some c := by
  have hg : (systemField rom base)[k]? = tigerTag[k]? := by rw [h]
  unfold systemField at hg
  rw [List.getElem?_take_of_lt hk, List.getElem?_drop] at hg
  rw [hg]
  interval_cases k <;> exact ⟨_, rfl, by decide, rfl⟩

theorem strncmp_tag {rom : List Nat} {base : Nat} (h : systemField rom base = tigerTag) :
    (strncmp rom (base + hdr.system) tigerLiteral 9).out = .ok 0 :=
  strncmp_same rom 9 tigerLiteral _ fun _ hk => systemField_get h hk

theorem and_0xf_lt (sc : Nat) : sc &&& 0xf < 16 :=
  Nat.lt_succ_of_le Nat.and_le_right

/-- The result of `securityCheck` on a buffer whose header passes the game-ID
and system-tag tests and whose selected row lies inside the buffer: whether the
row's checksum is 0x5A, whatever the `unk` byte holds. -/
theorem securityCheck_eval {rom : List Nat} {v g0 g1 sc unk s : Nat}
    (hv : rom[0]? = some v)
    (hg0 : rom[checkBase rom + 26]? = some g0) (hg1 : rom[checkBase rom + 27]? = some g1)
    (hsc : rom[checkBase rom + 28]? = some sc) (hid : (g0 + g1) ^^^ 0xa5 = sc)
    (hsys : systemField rom (checkBase rom) = tigerTag)
    (hunk : rom[checkBase rom + 4]? = some unk)
    (hsum : rowChecksum rom (checkBase rom) (sc &&& 0xf) = some s) :
    (securityCheck rom).out = .ok (s == 0x5a) := by
  have hf : (firstByteTest rom).out = .ok (v == 0 || v == 0xff) :=
    (firstByteTest_out rom _).2 ⟨v, hv, rfl⟩
  have hlt := and_0xf_lt sc
  unfold securityCheck
  simp only [bind_eq, pure_eq]
  rw [andThen_of_ok _ hf]
  simp only [checkBase_eq hv]
  rw [andThen_of_ok _ ((readByte_out rom _ g0).2 (by simpa [hdr] using hg0)),
    andThen_of_ok _ ((readByte_out rom _ g1).2 (by simpa [hdr] using hg1)),
    andThen_of_ok _ ((readByte_out rom _ sc).2 (by simpa [hdr] using hsc))]
  have h1 : (((g0 + g1) ^^^ 0xa5) != sc) = false := by simp [hid]
  simp only [h1, Bool.false_eq_true, if_false]
  rw [andThen_of_ok _ (strncmp_tag hsys)]
  have h2 : ((0 : Int) != 0) = false := by decide
  simp only [h2, Bool.false_eq_true, if_false]
  rw [andThen_of_ok _ ((readByte_out rom _ unk).2 (by simpa [hdr] using hunk))]
  have h3 : ((unk &&& (if ((1 : Nat) == 0) = true then 1 else 0)) != 0) = false := by
    have : (if ((1 : Nat) == 0) = true then 1 else 0) = 0 := by decide
    rw [this]
    simp
  simp only [h3, Bool.false_eq_true, if_false]
  rw [tableRow_of_lt hlt, andThen_of_ok _ rfl,
    andThen_of_ok _ ((sumLoop_row_out rom _ hlt s).2 hsum)]
  rfl

/-! ## The search loop and `securityFix`, forwards -/

theorem fixLoop_found (rom : List Nat) (base length : Nat) {m : Nat} (hm : m < 16)
    (hms : ¬ skipped length m) (hck : rowChecksum rom base m = some 0x5a) :
    ∀ fuel i, i ≤ m → 16 ≤ fuel + i →
      (∀ j, i ≤ j → j < m → ¬ skipped length j →
          ∃ s, rowChecksum rom base j = some s ∧ s ≠ 0x5a) →
      (fixLoop rom base length (fuel + 1) i).out = .ok m := by
  intro fuel
  induction fuel with
  | zero => intro i h1 h2 _; omega
  | succ fuel ih =>
    intro i him hfuel hall
    have hi : i < 16 := by omega
    obtain ⟨hr16, hrs, hir, hbelow⟩ := rowAt_facts length hi
    have hrm : rowAt length i ≤ m := by
      by_contra hlt
      exact hms (hbelow m him (by omega))
    rw [fixLoop_succ rom base length (fuel + 1) hi, tableRow_of_lt hr16, andThen_of_ok _ rfl]
    by_cases heq : rowAt length i = m
    · rw [heq, andThen_of_ok _ ((sumLoop_row_out rom base hm _).2 hck)]
      rfl
    · obtain ⟨s, hs, hne⟩ := hall (rowAt length i) hir (by omega) hrs
      rw [andThen_of_ok _ ((sumLoop_row_out rom base hr16 _).2 hs)]
      have hb : (s == 0x5a) = false := by simpa using hne
      simp only [hb, Bool.false_eq_true, if_false]
      exact ih _ (by omega) (by omega) fun j h1 h2 h3 => hall j (by omega) h2 h3

theorem fixLoop_none (rom : List Nat) (base length : Nat) :
    ∀ fuel i, 16 ≤ fuel + i →
      (∀ j, i ≤ j → j < 16 → ¬ skipped length j →
          ∃ s, rowChecksum rom base j = some s ∧ s ≠ 0x5a) →
      (fixLoop rom base length (fuel + 1) i).out = .ok 0xff := by
  intro fuel
  induction fuel with
  | zero =>
    intro i h _
    have hi : ¬ i < 16 := by omega
    rw [fixLoop_ge rom base length 0 hi]
    rfl
  | succ fuel ih =>
    intro i hfuel hall
    by_cases hi : i < 16
    · obtain ⟨hr16, hrs, hir, -⟩ := rowAt_facts length hi
      obtain ⟨s, hs, hne⟩ := hall (rowAt length i) hir hr16 hrs
      rw [fixLoop_succ rom base length (fuel + 1) hi, tableRow_of_lt hr16, andThen_of_ok _ rfl,
        andThen_of_ok _ ((sumLoop_row_out rom base hr16 _).2 hs)]
      have hb : (s == 0x5a) = false := by simpa using hne
      simp only [hb, Bool.false_eq_true, if_false]
      exact ih _ (by omega) fun j h1 h2 h3 => hall j (by omega) h2 h3
    · rw [fixLoop_ge rom base length (fuel + 1) hi]
      rfl

/-- A run of `securityFix` put together from the value of `match`. -/
theorem securityFix_of_loop {rom : List Nat} {length v m : Nat} (hlen : 0x8000 ≤ length)
    (hv : rom[0]? = some v)
    (hm : (fixLoop rom (fixBase rom length) length 17 0).out = .ok m) :
    (m = 0xff → (securityFix rom length).out = .ok (false, rom))
    ∧ (m ≠ 0xff → fixBase rom length + 28 < rom.length →
        (securityFix rom length).out = .ok (true, patched rom (fixBase rom length) m)) := by
  have hl : ¬ length < 0x8000 := by omega
  have hf : (firstByteTest rom).out = .ok (v == 0 || v == 0xff) :=
    (firstByteTest_out rom _).2 ⟨v, hv, rfl⟩
  have hrun : securityFix rom length
      = Run.andThen (firstByteTest rom) fun skip =>
        Run.andThen (fixLoop rom (if (skip && decide (length > 0x8000)) = true then 0x40000
          else 0) length 17 0) fun m =>
        if (m == 0xff) = true then Run.ret (false, rom)
        else Run.andThen (writeByte rom ((if (skip && decide (length > 0x8000)) = true
            then 0x40000 else 0) + hdr.gameId) ((m ^^^ 0xa5) % 256)) fun rom1 =>
          Run.andThen (writeByte rom1 ((if (skip && decide (length > 0x8000)) = true
            then 0x40000 else 0) + hdr.gameId + 1) 0) fun rom2 =>
          Run.andThen (writeByte rom2 ((if (skip && decide (length > 0x8000)) = true
            then 0x40000 else 0) + hdr.securityCode) m) fun rom3 =>
          Run.ret (true, rom3) := by
    unfold securityFix
    simp only [hl, if_false]
    rfl
  rw [hrun, andThen_of_ok _ hf]
  simp only [fixBase_eq hv length]
  rw [andThen_of_ok _ hm]
  constructor
  · intro h
    subst h
    rfl
  · intro hne hb
    have hff : (m == 0xff) = false := by simpa using hne
    simp only [hff, Bool.false_eq_true, if_false]
    rw [andThen_of_ok _ ((writeByte_out _ _ _ _).2 ⟨by simp [hdr]; omega, rfl⟩),
      andThen_of_ok _ ((writeByte_out _ _ _ _).2 ⟨by simp [hdr]; omega, rfl⟩),
      andThen_of_ok _ ((writeByte_out _ _ _ _).2 ⟨by simp [hdr]; omega, rfl⟩)]
    rfl

/-! ## Runs that do not return -/

theorem andThen_out_fault {α β : Type} (x : Run α) (f : α → Run β) (e : Fault) :
    (Run.andThen x f).out = .fault e
      ↔ x.out = .fault e ∨ ∃ a, x.out = .ok a ∧ (f a).out = .fault e := by
  unfold Run.andThen
  cases h : x.out with
  | ok a => simp
  | fault e0 => simp

theorem readByte_fault {rom : List Nat} {off : Nat} {e : Fault}
    (h : (readByte rom off).out = .fault e) : e = .romOob off ∧ rom.length ≤ off := by
  unfold readByte at h
  cases hg : rom[off]? with
  | some b => rw [hg] at h; exact absurd h (by simp)
  | none =>
    rw [hg] at h
    simp only [Outcome.fault.injEq] at h
    exact ⟨h.symm, List.getElem?_eq_none_iff.1 hg⟩

theorem writeByte_fault {rom : List Nat} {off v : Nat} {e : Fault}
    (h : (writeByte rom off v).out = .fault e) : e = .romOob off ∧ rom.length ≤ off := by
  unfold writeByte at h
  by_cases hlt : off < rom.length
  · simp [hlt] at h
  · simp only [hlt, if_false, Outcome.fault.injEq] at h
    exact ⟨h.symm, by omega⟩

theorem sumLoop_row_fault (rom : List Nat) (base : Nat) {n : Nat} (hn : n < 16) {e : Fault}
    (h : (sumLoop rom base 3 (securityTable.getD n []) 0).out = .fault e) :
    ∃ k, k < 3 ∧ e = .romOob (base + tableOffset n k) ∧ rom.length ≤ base + tableOffset n k := by
  rw [sumLoop_row rom base hn] at h
  rcases (andThen_out_fault _ _ _).1 h with h | ⟨b0, -, h⟩
  · exact ⟨0, by omega, readByte_fault h⟩
  rcases (andThen_out_fault _ _ _).1 h with h | ⟨b1, -, h⟩
  · exact ⟨1, by omega, readByte_fault h⟩
  rcases (andThen_out_fault _ _ _).1 h with h | ⟨b2, -, h⟩
  · exact ⟨2, by omega, readByte_fault h⟩
  · simp [Run.ret] at h

/-- With the fuel `securityFix` gives it, the only way the search loop ends
without a value is a read outside the buffer while a row that is not passed
over is evaluated. -/
theorem fixLoop_fault (rom : List Nat) (base length : Nat) :
    ∀ fuel i e, 16 ≤ fuel + i → (fixLoop rom base length (fuel + 1) i).out = .fault e →
      ∃ n k, n < 16 ∧ ¬ skipped length n ∧ k < 3 ∧ e = .romOob (base + tableOffset n k)
        ∧ rom.length ≤ base + tableOffset n k := by
  intro fuel
  induction fuel with
  | zero =>
    intro i e h hf
    have hi : ¬ i < 16 := by omega
    rw [fixLoop_ge rom base length 0 hi] at hf
    simp [Run.ret] at hf
  | succ fuel ih =>
    intro i e h hf
    by_cases hi : i < 16
    · obtain ⟨hr16, hrs, hir, -⟩ := rowAt_facts length hi
      rw [fixLoop_succ rom base length (fuel + 1) hi, tableRow_of_lt hr16,
        andThen_of_ok _ rfl] at hf
      rcases (andThen_out_fault _ _ _).1 hf with hf | ⟨accum, -, hf⟩
      · obtain ⟨k, hk, he, hlen⟩ := sumLoop_row_fault rom base hr16 hf
        exact ⟨_, k, hr16, hrs, hk, he, hlen⟩
      · cases ha : (accum == 0x5a)
        · simp only [ha, Bool.false_eq_true, if_false] at hf
          exact ih _ e (by omega) hf
        · simp [ha, Run.ret] at hf
    · rw [fixLoop_ge rom base length (fuel + 1) hi] at hf
      simp [Run.ret] at hf

/-- A run of `securityFix` that does not return has accessed a byte outside the
buffer: the model's fuel is never what ends it. -/
theorem securityFix_fault {rom : List Nat} {length : Nat} {e : Fault}
    (h : (securityFix rom length).out = .fault e) :
    ∃ off, e = .romOob off ∧ rom.length ≤ off := by
  unfold securityFix at h
  by_cases hl : length < 0x8000
  · simp [hl, pure_eq, Run.ret] at h
  simp only [hl, if_false, bind_eq, pure_eq] at h
  rcases (andThen_out_fault _ _ _).1 h with h | ⟨skip, -, h⟩
  · unfold firstByteTest at h
    simp only [bind_eq, pure_eq] at h
    rcases (andThen_out_fault _ _ _).1 h with h | ⟨b, -, h⟩
    · exact ⟨0, readByte_fault h⟩
    cases hb : (b == 0)
    · simp only [hb, Bool.false_eq_true, if_false] at h
      rcases (andThen_out_fault _ _ _).1 h with h | ⟨b2, -, h⟩
      · exact ⟨0, readByte_fault h⟩
      · simp [Run.ret] at h
    · simp [hb, Run.ret] at h
  rcases (andThen_out_fault _ _ _).1 h with h | ⟨m, -, h⟩
  · obtain ⟨n, k, -, -, -, he, hlen⟩ := fixLoop_fault rom _ length 16 0 e (le_refl _) h
    exact ⟨_, he, hlen⟩
  cases hff : (m == 0xff)
  · simp only [hff, Bool.false_eq_true, if_false] at h
    rcases (andThen_out_fault _ _ _).1 h with h | ⟨r1, h1, h⟩
    · exact ⟨_, writeByte_fault h⟩
    obtain ⟨-, hr1⟩ := (writeByte_out _ _ _ _).1 h1
    rcases (andThen_out_fault _ _ _).1 h with h | ⟨r2, h2, h⟩
    · have := writeByte_fault h
      rw [hr1, List.length_set] at this
      exact ⟨_, this⟩
    obtain ⟨-, hr2⟩ := (writeByte_out _ _ _ _).1 h2
    rcases (andThen_out_fault _ _ _).1 h with h | ⟨r3, -, h⟩
    · have := writeByte_fault h
      rw [hr2, hr1, List.length_set, List.length_set] at this
      exact ⟨_, this⟩
    · simp [Run.ret] at h
  · simp [hff, Run.ret] at h

/-! ## Facts of the table -/

theorem tableOffset_bounds :
    ∀ n, n < 16 → ∀ k, k < 3 → 28 < tableOffset n k ∧ tableOffset n k ≤ 0x8B6F := by decide

theorem tableOffset_small :
    ∀ n, n < 16 → n ≠ 3 → n ≠ 6 → ∀ k, k < 3 → tableOffset n k < 0x8000 := by decide

theorem code_facts :
    ∀ m, m < 16 → (m ^^^ 0xa5) % 256 = m ^^^ 0xa5 ∧ ((m ^^^ 0xa5) + 0) ^^^ 0xa5 = m
      ∧ m &&& 0xf = m ∧ m ≠ 0xff := by decide

/-! ## The buffer after the three writes -/

theorem patched_length (rom : List Nat) (base m : Nat) :
    (patched rom base m).length = rom.length := by
  simp [patched]

theorem patched_get_other (rom : List Nat) (base m : Nat) {k : Nat}
    (h26 : k ≠ base + 26) (h27 : k ≠ base + 27) (h28 : k ≠ base + 28) :
    (patched rom base m)[k]? = rom[k]? := by
  unfold patched
  rw [List.getElem?_set_ne (Ne.symm h28), List.getElem?_set_ne (Ne.symm h27),
    List.getElem?_set_ne (Ne.symm h26)]

theorem patched_get_header (rom : List Nat) (base m : Nat) (h : base + 28 < rom.length) :
    (patched rom base m)[base + 26]? = some ((m ^^^ 0xa5) % 256)
      ∧ (patched rom base m)[base + 27]? = some 0
      ∧ (patched rom base m)[base + 28]? = some m := by
  unfold patched
  refine ⟨?_, ?_, ?_⟩
  · rw [List.getElem?_set_ne (by omega), List.getElem?_set_ne (by omega),
      List.getElem?_set_self (by omega)]
  · rw [List.getElem?_set_ne (by omega), List.getElem?_set_self (by simp; omega)]
  · rw [List.getElem?_set_self (by simp; omega)]

theorem systemField_congr {rom r : List Nat} {base : Nat}
    (h : ∀ k, k < 9 → r[base + hdr.system + k]? = rom[base + hdr.system + k]?) :
    systemField r base = systemField rom base := by
  unfold systemField
  apply List.ext_getElem?
  intro k
  by_cases hk : k < 9
  · rw [List.getElem?_take_of_lt hk, List.getElem?_take_of_lt hk, List.getElem?_drop,
      List.getElem?_drop]
    exact h k hk
  · rw [List.getElem?_take_eq_none (by omega), List.getElem?_take_eq_none (by omega)]

theorem rowChecksum_patched (rom : List Nat) (base m : Nat) {n : Nat} (hn : n < 16) :
    rowChecksum (patched rom base m) base n = rowChecksum rom base n := by
  have h0 := (tableOffset_bounds n hn 0 (by omega)).1
  have h1 := (tableOffset_bounds n hn 1 (by omega)).1
  have h2 := (tableOffset_bounds n hn 2 (by omega)).1
  unfold rowChecksum
  rw [patched_get_other rom base m (by omega) (by omega) (by omega),
    patched_get_other rom base m (by omega) (by omega) (by omega),
    patched_get_other rom base m (by omega) (by omega) (by omega)]

theorem checkBase_congr {rom r : List Nat} (h : r[0]? = rom[0]?) : checkBase r = checkBase rom := by
  unfold checkBase
  rw [h]

/-- After a successful `securityFix`, `securityCheck` accepts the buffer when
the system tag is in place and both functions look for the header at the same
offset. -/
theorem check_after_fix {rom r : List Nat} {length : Nat} (hlen : 0x8000 ≤ length)
    (hfix : (securityFix rom length).out = .ok (true, r))
    (hsys : systemField rom (fixBase rom length) = tigerTag)
    (hbase : checkBase rom = fixBase rom length) :
    (securityCheck r).out = .ok true := by
  obtain ⟨v, m, hv, hloop, h | ⟨hne, -, hb, hr⟩⟩ := securityFix_ok hlen hfix
  · exact absurd h.2.1 (by simp)
  rcases fixLoop_ok rom _ length 17 0 m hloop with ⟨h, -⟩ | ⟨hm, -, -, hck, -⟩
  · exact absurd h hne
  obtain ⟨c1, c2, c3, -⟩ := code_facts m hm
  obtain ⟨p26, p27, p28⟩ := patched_get_header rom (fixBase rom length) m hb
  have hbase26 : (0 : Nat) ≠ fixBase rom length + 26 := by omega
  have hr0 : r[0]? = rom[0]? := by
    rw [hr]
    exact patched_get_other rom _ m (by omega) (by omega) (by omega)
  have hcb : checkBase r = fixBase rom length := by rw [checkBase_congr hr0, hbase]
  obtain ⟨unk, hunk⟩ := get_of_lt (show fixBase rom length + 4 < rom.length by omega)
  have hsum : rowChecksum r (checkBase r) (m &&& 0xf) = some 0x5a := by
    rw [hcb, c3, hr, rowChecksum_patched rom _ m hm]
    exact hck
  have := @securityCheck_eval r v (m ^^^ 0xa5) 0 m unk 0x5a (by rw [hr0]; exact hv)
    (by rw [hcb, hr, p26, c1]) (by rw [hcb, hr, p27]) (by rw [hcb, hr, p28]) c2
    (by
      rw [hcb, ← hsys, hr]
      apply systemField_congr
      intro k hk
      apply patched_get_other <;> simp only [hdr] <;> omega)
    (by
      rw [hcb, hr, patched_get_other rom _ m (by omega) (by omega) (by omega)]
      exact hunk)
    hsum
  simpa using this

/-! ## Concrete buffers -/

theorem image_length (n : Nat) (ws : List (Nat × Nat)) : (image n ws).length = n := by
  simp [image]

theorem image_get (n : Nat) (ws : List (Nat × Nat)) {i : Nat} (h : i < n) :
    (image n ws)[i]? = some ((ws.lookup i).getD 0) := by
  unfold image
  rw [List.getElem?_map, List.getElem?_range h]
  rfl

theorem image_get_none (n : Nat) (ws : List (Nat × Nat)) {i : Nat} (h : n ≤ i) :
    (image n ws)[i]? = none := by
  rw [List.getElem?_eq_none_iff, image_length]
  exact h

theorem systemField_of_get {rom : List Nat} {base : Nat}
    (h : ∀ k, k < 9 → rom[base + hdr.system + k]? = tigerTag[k]?) :
    systemField rom base = tigerTag := by
  unfold systemField
  apply List.ext_getElem?
  intro k
  by_cases hk : k < 9
  · rw [List.getElem?_take_of_lt hk, List.getElem?_drop]
    exact h k hk
  · rw [List.getElem?_take_eq_none (by omega)]
    symm
    rw [List.getElem?_eq_none_iff]
    simp only [tigerTag, tigerLiteral, List.take, List.length]
    omega

theorem rowChecksum_of_get {rom : List Nat} {base n b0 b1 b2 : Nat}
    (h0 : rom[base + tableOffset n 0]? = some b0) (h1 : rom[base + tableOffset n 1]? = some b1)
    (h2 : rom[base + tableOffset n 2]? = some b2) :
    rowChecksum rom base n = some ((b0 + b1 + b2) % 256) := by
  unfold rowChecksum
  rw [h0, h1, h2]

theorem get_lt_length {rom : List Nat} {i b : Nat} (h : rom[i]? = some b) : i < rom.length := by
  by_contra hlt
  rw [List.getElem?_eq_none_iff.2 (by omega)] at h
  exact absurd h (by simp)

/-- A run of `securityFix` that finds row 0: the three header bytes are written
for `match = 0`. -/
theorem securityFix_row0 {rom : List Nat} {length v : Nat} (hlen : 0x8000 ≤ length)
    (hv : rom[0]? = some v) (hck : rowChecksum rom (fixBase rom length) 0 = some 0x5a)
    (hb : fixBase rom length + 28 < rom.length) :
    (securityFix rom length).out = .ok (true, patched rom (fixBase rom length) 0) := by
  have hloop := fixLoop_found rom (fixBase rom length) length (m := 0) (by omega)
    (by unfold skipped; omega) hck 16 0 (le_refl _) (by omega)
    (fun j _ h2 => absurd h2 (by omega))
  exact (securityFix_of_loop hlen hv hloop).2 (by omega) hb

theorem imgNoTag_fix :
    (securityFix imgNoTag 0x8000).out = .ok (true, patched imgNoTag 0 0) := by
  have hv : imgNoTag[0]? = some 1 := image_get _ _ (by decide)
  have hbase : fixBase imgNoTag 0x8000 = 0 := by unfold fixBase; simp
  have h := @securityFix_row0 imgNoTag 0x8000 1 (le_refl _) hv
    (by
      rw [hbase]
      exact rowChecksum_of_get (image_get _ _ (by decide)) (image_get _ _ (by decide))
        (image_get _ _ (by decide)))
    (by rw [hbase, imgNoTag, image_length]; decide)
  rw [hbase] at h
  exact h

theorem securityCheck_badTag {rom : List Nat} {v g0 g1 sc c : Nat}
    (hv : rom[0]? = some v)
    (hg0 : rom[checkBase rom + 26]? = some g0) (hg1 : rom[checkBase rom + 27]? = some g1)
    (hsc : rom[checkBase rom + 28]? = some sc) (hid : (g0 + g1) ^^^ 0xa5 = sc)
    (hc : rom[checkBase rom + 5]? = some c) (hne : c ≠ 0x54) :
    (securityCheck rom).out = .ok false := by
  have hf : (firstByteTest rom).out = .ok (v == 0 || v == 0xff) :=
    (firstByteTest_out rom _).2 ⟨v, hv, rfl⟩
  unfold securityCheck
  simp only [bind_eq, pure_eq]
  rw [andThen_of_ok _ hf]
  simp only [checkBase_eq hv]
  rw [andThen_of_ok _ ((readByte_out rom _ g0).2 (by simpa [hdr] using hg0)),
    andThen_of_ok _ ((readByte_out rom _ g1).2 (by simpa [hdr] using hg1)),
    andThen_of_ok _ ((readByte_out rom _ sc).2 (by simpa [hdr] using hsc))]
  have h1 : (((g0 + g1) ^^^ 0xa5) != sc) = false := by simp [hid]
  simp only [h1, Bool.false_eq_true, if_false]
  have hs : (strncmp rom (checkBase rom + hdr.system) tigerLiteral 9).out
      = .ok ((c : Int) - (0x54 : Nat)) := by
    rw [tigerLiteral, strncmp, bind_eq,
      andThen_of_ok _ ((readByte_out rom _ c).2 (by simpa [hdr] using hc))]
    have : (c != 0x54) = true := by simpa using hne
    simp only [this, if_true]
    rfl
  rw [andThen_of_ok _ hs]
  have h2 : (((c : Int) - (0x54 : Nat)) != 0) = true := by
    simp only [bne_iff_ne, ne_eq]
    omega
  simp only [h2, if_true]
  rfl

theorem securityCheck_fault {rom : List Nat} {v : Nat} (hv : rom[0]? = some v)
    (h : rom[checkBase rom + 26]? = none) :
    (securityCheck rom).out = .fault (.romOob (checkBase rom + 26)) := by
  have hf : (firstByteTest rom).out = .ok (v == 0 || v == 0xff) :=
    (firstByteTest_out rom _).2 ⟨v, hv, rfl⟩
  unfold securityCheck
  simp only [bind_eq, pure_eq]
  rw [andThen_of_ok _ hf]
  simp only [checkBase_eq hv]
  have hr : (readByte rom (checkBase rom + hdr.gameId)).out
      = .fault (.romOob (checkBase rom + 26)) := by
    unfold readByte
    simp only [hdr]
    rw [h]
  rw [andThen_of_fault _ hr]

theorem imgNoTag_check : (securityCheck (patched imgNoTag 0 0)).out = .ok false := by
  have hlen : (0 : Nat) + 28 < imgNoTag.length := by rw [imgNoTag, image_length]; decide
  obtain ⟨p26, p27, p28⟩ := patched_get_header imgNoTag 0 0 hlen
  have hv : (patched imgNoTag 0 0)[0]? = some 1 := by
    rw [patched_get_other imgNoTag 0 0 (by decide) (by decide) (by decide)]
    exact image_get _ _ (by decide)
  have hbase : checkBase (patched imgNoTag 0 0) = 0 := by unfold checkBase; rw [hv]; decide
  refine @securityCheck_badTag _ 1 0xa5 0 0 0 hv ?_ ?_ ?_
    (by decide) ?_ (by decide)
  · rw [hbase]; exact p26
  · rw [hbase]; exact p27
  · rw [hbase]; exact p28
  · rw [hbase, patched_get_other imgNoTag 0 0 (by decide) (by decide) (by decide)]
    exact image_get _ _ (by decide)

theorem imgTagged_tag : systemField imgTagged 0 = tigerTag := by
  apply systemField_of_get
  intro k hk
  interval_cases k <;> exact image_get _ _ (by decide)

theorem imgZeroFirst_tag : systemField imgZeroFirst 0 = tigerTag := by
  apply systemField_of_get
  intro k hk
  interval_cases k <;> exact image_get _ _ (by decide)

theorem imgValid_tag : systemField imgValid 0 = tigerTag := by
  apply systemField_of_get
  intro k hk
  interval_cases k <;> exact image_get _ _ (by decide)

theorem imgUnkClear_tag : systemField imgUnkClear 0 = tigerTag := by
  apply systemField_of_get
  intro k hk
  interval_cases k <;> exact image_get _ _ (by decide)

theorem imgBanked_tag : systemField imgBanked 0x40000 = tigerTag := by
  apply systemField_of_get
  intro k hk
  interval_cases k <;> exact image_get _ _ (by decide)

theorem image_fix_row0 {n v : Nat} {ws : List (Nat × Nat)} (hn : n = 0x8000)
    (hv : (image n ws)[0]? = some v)
    (hck : rowChecksum (image n ws) 0 0 = some 0x5a) :
    (securityFix (image n ws) 0x8000).out = .ok (true, patched (image n ws) 0 0) := by
  have hbase : fixBase (image n ws) 0x8000 = 0 := by unfold fixBase; simp
  have h := @securityFix_row0 (image n ws) 0x8000 v (le_refl _) hv
    (by rw [hbase]; exact hck) (by rw [hbase, image_length, hn]; decide)
  rw [hbase] at h
  exact h

theorem imgZeroFirst_fix :
    (securityFix imgZeroFirst 0x8000).out = .ok (true, patched imgZeroFirst 0 0) :=
  image_fix_row0 rfl (v := 0) (image_get _ _ (by decide))
    (rowChecksum_of_get (image_get _ _ (by decide)) (image_get _ _ (by decide))
      (image_get _ _ (by decide)))

theorem imgTagged_fix :
    (securityFix imgTagged 0x8000).out = .ok (true, patched imgTagged 0 0) :=
  image_fix_row0 rfl (v := 1) (image_get _ _ (by decide))
    (rowChecksum_of_get (image_get _ _ (by decide)) (image_get _ _ (by decide))
      (image_get _ _ (by decide)))

theorem imgZeroFirst_check :
    (securityCheck (patched imgZeroFirst 0 0)).out = .fault (.romOob 0x4001A) := by
  have hv : (patched imgZeroFirst 0 0)[0]? = some 0 := by
    rw [patched_get_other imgZeroFirst 0 0 (by decide) (by decide) (by decide)]
    exact image_get _ _ (by decide)
  have hbase : checkBase (patched imgZeroFirst 0 0) = 0x40000 := by
    unfold checkBase; rw [hv]; decide
  have h := securityCheck_fault hv (by
    rw [hbase, List.getElem?_eq_none_iff, patched_length, imgZeroFirst, image_length]
    decide)
  rw [hbase] at h
  exact h

theorem securityFix_true_len {rom r : List Nat} {length : Nat}
    (h : (securityFix rom length).out = .ok (true, r)) : 0x8000 ≤ length := by
  by_contra hl
  have hl2 : length < 0x8000 := by omega
  unfold securityFix at h
  simp [hl2, pure_eq, Run.ret] at h

theorem fixBase_min (rom : List Nat) : fixBase rom 0x8000 = 0 := by
  unfold fixBase; simp

theorem imgNoMatch_rows :
    ∀ n, n < 16 → ¬ skipped 0x8000 n → ∃ s, rowChecksum imgNoMatch 0 n = some s ∧ s ≠ 0x5a := by
  intro n hn hs
  refine ⟨0, ?_, by decide⟩
  have hne : n ≠ 3 ∧ n ≠ 6 := by unfold skipped at hs; omega
  interval_cases n
  case «3» => exact absurd rfl hne.1
  case «6» => exact absurd rfl hne.2
  all_goals
    exact rowChecksum_of_get (image_get _ _ (by decide)) (image_get _ _ (by decide))
      (image_get _ _ (by decide))

theorem imgUnkClear_check : (securityCheck imgUnkClear).out = .ok true := by
  have hv : imgUnkClear[0]? = some 1 := image_get _ _ (by decide)
  have hc : checkBase imgUnkClear = 0 := by unfold checkBase; rw [hv]; decide
  have h := @securityCheck_eval imgUnkClear 1 0xa5 0 0 0 0x5a hv
    (by rw [hc]; exact image_get _ _ (by decide)) (by rw [hc]; exact image_get _ _ (by decide))
    (by rw [hc]; exact image_get _ _ (by decide)) (by decide)
    (by rw [hc]; exact imgUnkClear_tag) (by rw [hc]; exact image_get _ _ (by decide))
    (by
      rw [hc]
      exact rowChecksum_of_get (image_get _ _ (by decide)) (image_get _ _ (by decide))
        (image_get _ _ (by decide)))
  simpa using h

theorem imgBanked_fixBase : fixBase imgBanked 0x48000 = 0x40000 := by
  unfold fixBase
  rw [show imgBanked[0]? = some 0 from image_get _ _ (by decide)]
  decide

theorem imgBanked_row0 : rowChecksum imgBanked 0x40000 0 = some 0x5a :=
  rowChecksum_of_get (image_get _ _ (by decide)) (image_get _ _ (by decide))
    (image_get _ _ (by decide))

theorem imgBanked_fix :
    (securityFix imgBanked 0x48000).out = .ok (true, patched imgBanked 0x40000 0) := by
  have h := @securityFix_row0 imgBanked 0x48000 0 (by decide) (image_get _ _ (by decide))
    (by rw [imgBanked_fixBase]; exact imgBanked_row0)
    (by rw [imgBanked_fixBase, imgBanked, image_length]; decide)
  rw [imgBanked_fixBase] at h
  exact h

/-- C2: for every row index `m` below 16 and every buffer whose header (at the
offset `securityCheck` uses) has security code `m`, game ID `(m XOR 0xA5, 0)`,
the system tag `TigerDMGC` and an `unk` byte with bit 0 set, and in which the
three bytes row `m` addresses sum modulo 256 to 0x5A, `securityCheck` returns
true. -/
theorem C2_check_accepts (rom : List Nat) (m unk b0 b1 b2 : Nat) (hm : m < 16)
    (hsc : rom[checkBase rom + 28]? = some m)
    (hg0 : rom[checkBase rom + 26]? = some (m ^^^ 0xa5))
    (hg1 : rom[checkBase rom + 27]? = some 0)
    (hsys : systemField rom (checkBase rom) = tigerTag)
    (hunk : rom[checkBase rom + 4]? = some unk) (_hbit : unk &&& 1 ≠ 0)
    (h0 : rom[checkBase rom + tableOffset m 0]? = some b0)
    (h1 : rom[checkBase rom + tableOffset m 1]? = some b1)
    (h2 : rom[checkBase rom + tableOffset m 2]? = some b2)
    (hsum : (b0 + b1 + b2) % 256 = 0x5a) :
    (securityCheck rom).out = .ok true := by
  obtain ⟨-, c2, c3, -⟩ := code_facts m hm
  obtain ⟨v, hv⟩ := get_of_lt (show 0 < rom.length by have := get_lt_length hsc; omega)
  have hck : rowChecksum rom (checkBase rom) (m &&& 0xf) = some 0x5a := by
    rw [c3, rowChecksum_of_get h0 h1 h2, hsum]
  have := securityCheck_eval hv hg0 hg1 hsc c2 hsys hunk hck
  simpa using this

/-- C2 at a 32 KB buffer with a complete header for row 0. -/
theorem C2_check_accepts_witness :
    (0 < 16 ∧ imgValid[checkBase imgValid + 28]? = some 0
      ∧ imgValid[checkBase imgValid + 26]? = some (0 ^^^ 0xa5)
      ∧ imgValid[checkBase imgValid + 4]? = some 1 ∧ 1 &&& 1 ≠ 0
      ∧ systemField imgValid (checkBase imgValid) = tigerTag)
    ∧ (securityCheck imgValid).out = .ok true :=
  have hc : checkBase imgValid = 0 := by
    unfold checkBase
    rw [show imgValid[0]? = some 1 from image_get _ _ (by decide)]
    decide
  have hsys : systemField imgValid (checkBase imgValid) = tigerTag := by
    rw [hc]; exact imgValid_tag
  have hsc : imgValid[checkBase imgValid + 28]? = some 0 := by
    rw [hc]; exact image_get _ _ (by decide)
  have hg0 : imgValid[checkBase imgValid + 26]? = some (0 ^^^ 0xa5) := by
    rw [hc]; exact image_get _ _ (by decide)
  have hunk : imgValid[checkBase imgValid + 4]? = some 1 := by
    rw [hc]; exact image_get _ _ (by decide)
  ⟨⟨by decide, hsc, hg0, hunk, by decide, hsys⟩,
    C2_check_accepts imgValid 0 1 0x5A 0 0 (by decide) hsc hg0
      (by rw [hc]; exact image_get _ _ (by decide)) hsys hunk (by decide)
      (by rw [hc]; exact image_get _ _ (by decide))
      (by rw [hc]; exact image_get _ _ (by decide))
      (by rw [hc]; exact image_get _ _ (by decide)) (by decide)⟩

/-- C3: for every buffer on which `securityFix` returns true there is a row
index `m` below 16, not 3 or 6 when the length is exactly 0x8000, whose three
table-addressed bytes sum modulo 256 to 0x5A, no lower evaluated row does, and
the header then holds gameId[0] = m XOR 0xA5, gameId[1] = 0, securityCode = m. -/
theorem C3_fix_lowest_row (rom r : List Nat) (length : Nat)
    (hfix : (securityFix rom length).out = .ok (true, r)) :
    ∃ m, m < 16 ∧ ¬ skipped length m
      ∧ rowChecksum rom (fixBase rom length) m = some 0x5a
      ∧ (∀ j, j < m → ¬ skipped length j →
          rowChecksum rom (fixBase rom length) j ≠ some 0x5a)
      ∧ r[fixBase rom length + 26]? = some (m ^^^ 0xa5)
      ∧ r[fixBase rom length + 27]? = some 0
      ∧ r[fixBase rom length + 28]? = some m := by
  obtain ⟨v, m, hv, hloop, h | ⟨hne, -, hb, hr⟩⟩ :=
    securityFix_ok (securityFix_true_len hfix) hfix
  · exact absurd h.2.1 (by simp)
  rcases fixLoop_ok rom _ length 17 0 m hloop with ⟨h, -⟩ | ⟨hm, -, hms, hck, hall⟩
  · exact absurd h hne
  obtain ⟨c1, -, -, -⟩ := code_facts m hm
  obtain ⟨p26, p27, p28⟩ := patched_get_header rom (fixBase rom length) m hb
  refine ⟨m, hm, hms, hck, ?_, by rw [hr, p26, c1], by rw [hr, p27], by rw [hr, p28]⟩
  intro j hj hjs hc
  obtain ⟨s, hs, hne2⟩ := hall j (Nat.zero_le _) hj hjs
  rw [hs] at hc
  exact hne2 (Option.some.inj hc)

/-- C3 at a 32 KB buffer in which row 0 sums to 0x5A. -/
theorem C3_fix_lowest_row_witness :
    (securityFix imgTagged 0x8000).out = .ok (true, patched imgTagged 0 0)
    ∧ ∃ m, m < 16 ∧ ¬ skipped 0x8000 m
      ∧ rowChecksum imgTagged (fixBase imgTagged 0x8000) m = some 0x5a
      ∧ (∀ j, j < m → ¬ skipped 0x8000 j →
          rowChecksum imgTagged (fixBase imgTagged 0x8000) j ≠ some 0x5a)
      ∧ (patched imgTagged 0 0)[fixBase imgTagged 0x8000 + 26]? = some (m ^^^ 0xa5)
      ∧ (patched imgTagged 0 0)[fixBase imgTagged 0x8000 + 27]? = some 0
      ∧ (patched imgTagged 0 0)[fixBase imgTagged 0x8000 + 28]? = some m :=
  ⟨imgTagged_fix, C3_fix_lowest_row imgTagged (patched imgTagged 0 0) 0x8000 imgTagged_fix⟩

/-- C4, on the code: a buffer with a complete header for row 0 whose `unk` byte
is 0, so bit 0 is clear, and `securityCheck` returns true. -/
theorem C4_unk_bit_not_tested :
    imgUnkClear[4]? = some 0 ∧ (0 : Nat) &&& 1 = 0 ∧ checkBase imgUnkClear = 0
    ∧ (securityCheck imgUnkClear).out = .ok true :=
  ⟨image_get _ _ (by decide), by decide,
    by unfold checkBase; rw [show imgUnkClear[0]? = some 1 from image_get _ _ (by decide)]; decide,
    imgUnkClear_check⟩

/-- C5: for every buffer and every length below 0x8000, `securityFix` returns
false with the buffer as it was, and its run has no read and no write. -/
theorem C5_small_rejected (rom : List Nat) (length : Nat) (h : length < 0x8000) :
    securityFix rom length = ⟨[], .ok (false, rom)⟩ := by
  unfold securityFix
  rw [if_pos h]
  rfl

/-- C5 at a buffer of 0x100 bytes. -/
theorem C5_small_rejected_witness :
    0x100 < 0x8000
    ∧ securityFix (image 0x100 [(0, 1)]) 0x100 = ⟨[], .ok (false, image 0x100 [(0, 1)])⟩ :=
  ⟨by decide, C5_small_rejected (image 0x100 [(0, 1)]) 0x100 (by decide)⟩

/-- C6: for every buffer of length at least 0x8000, `securityFix` returns false
with the buffer as it was exactly when every evaluated row (rows 0..15, minus 3
and 6 at length exactly 0x8000) has a checksum other than 0x5A; and on every
run that returns, the flag is false exactly when no evaluated row has the
checksum 0x5A, and then the buffer is unchanged. -/
theorem C6_no_match (rom : List Nat) (length : Nat) (hsize : rom.length = length)
    (hlen : 0x8000 ≤ length) :
    ((securityFix rom length).out = .ok (false, rom)
        ↔ ∀ n, n < 16 → ¬ skipped length n →
            ∃ s, rowChecksum rom (fixBase rom length) n = some s ∧ s ≠ 0x5a)
    ∧ ∀ b r, (securityFix rom length).out = .ok (b, r) →
        (b = false ↔ ∀ n, n < 16 → ¬ skipped length n →
            rowChecksum rom (fixBase rom length) n ≠ some 0x5a)
        ∧ (b = false → r = rom) := by
  have key : ∀ b r, (securityFix rom length).out = .ok (b, r) →
      (b = false ∧ r = rom ∧ ∀ n, n < 16 → ¬ skipped length n →
          ∃ s, rowChecksum rom (fixBase rom length) n = some s ∧ s ≠ 0x5a)
      ∨ (b = true ∧ ∃ m, m < 16 ∧ ¬ skipped length m
          ∧ rowChecksum rom (fixBase rom length) m = some 0x5a) := by
    intro b r h
    obtain ⟨v, m, hv, hloop, ⟨hm, hb, hr⟩ | ⟨hne, hb, -, -⟩⟩ := securityFix_ok hlen h
    · rcases fixLoop_ok rom _ length 17 0 m hloop with ⟨-, hall⟩ | ⟨hlt, -⟩
      · exact Or.inl ⟨hb, hr, fun n hn hs => hall n (Nat.zero_le _) hn hs⟩
      · omega
    · rcases fixLoop_ok rom _ length 17 0 m hloop with ⟨h1, -⟩ | ⟨hlt, -, hms, hck, -⟩
      · exact absurd h1 hne
      · exact Or.inr ⟨hb, m, hlt, hms, hck⟩
  refine ⟨⟨?_, ?_⟩, ?_⟩
  · intro h
    rcases key false rom h with ⟨-, -, hall⟩ | ⟨hb, -⟩
    · exact hall
    · exact absurd hb (by simp)
  · intro hall
    obtain ⟨v, hv⟩ := get_of_lt (show 0 < rom.length by omega)
    exact (securityFix_of_loop hlen hv (fixLoop_none rom _ length 16 0 (by omega)
      fun j _ h2 h3 => hall j h2 h3)).1 rfl
  · intro b r h
    rcases key b r h with ⟨hb, hr, hall⟩ | ⟨hb, m, hm, hms, hck⟩
    · refine ⟨⟨fun _ n hn hs hc => ?_, fun _ => hb⟩, fun _ => hr⟩
      obtain ⟨s, hs2, hne⟩ := hall n hn hs
      rw [hs2] at hc
      exact hne (Option.some.inj hc)
    · subst hb
      exact ⟨⟨fun h0 => absurd h0 (by simp), fun hall => absurd hck (hall m hm hms)⟩,
        fun h0 => absurd h0 (by simp)⟩

/-- C6 at a 32 KB buffer of zero bytes after the first: no row sums to 0x5A,
and `securityFix` returns false with the buffer as it was. -/
theorem C6_no_match_witness :
    imgNoMatch.length = 0x8000 ∧ 0x8000 ≤ 0x8000
    ∧ (securityFix imgNoMatch 0x8000).out = .ok (false, imgNoMatch) :=
  ⟨image_length _ _, le_refl _,
    (C6_no_match imgNoMatch 0x8000 (image_length _ _) (le_refl _)).1.2 (by
      rw [fixBase_min]
      exact imgNoMatch_rows)⟩

/-- C7: for every buffer on which `securityFix` returns true, the buffer after
the call has the same length and agrees with the buffer before at every offset
other than headerOffset+26, headerOffset+27 and headerOffset+28, where
headerOffset is 0x40000 if the first byte is 0x00 or 0xFF and the length is
above 0x8000, and 0 otherwise. -/
theorem C7_fix_frame (rom r : List Nat) (length : Nat)
    (hfix : (securityFix rom length).out = .ok (true, r)) :
    r.length = rom.length
    ∧ (fixBase rom length
        = if (rom[0]? = some 0 ∨ rom[0]? = some 0xff) ∧ length > 0x8000 then 0x40000 else 0)
    ∧ ∀ k, k ≠ fixBase rom length + 26 → k ≠ fixBase rom length + 27 →
        k ≠ fixBase rom length + 28 → r[k]? = rom[k]? := by
  obtain ⟨v, m, -, -, h | ⟨-, -, -, hr⟩⟩ := securityFix_ok (securityFix_true_len hfix) hfix
  · exact absurd h.2.1 (by simp)
  subst hr
  exact ⟨patched_length _ _ _, rfl, fun k h26 h27 h28 => patched_get_other _ _ _ h26 h27 h28⟩

/-- C7 at a buffer of 0x48000 bytes with first byte 0: the header is at 0x40000. -/
theorem C7_fix_frame_witness :
    (securityFix imgBanked 0x48000).out = .ok (true, patched imgBanked 0x40000 0)
    ∧ (patched imgBanked 0x40000 0).length = imgBanked.length
    ∧ ∀ k, k ≠ fixBase imgBanked 0x48000 + 26 → k ≠ fixBase imgBanked 0x48000 + 27 →
        k ≠ fixBase imgBanked 0x48000 + 28 →
        (patched imgBanked 0x40000 0)[k]? = imgBanked[k]? :=
  have h := C7_fix_frame imgBanked (patched imgBanked 0x40000 0) 0x48000 imgBanked_fix
  ⟨imgBanked_fix, h.1, h.2.2⟩

/-- C8: for a length of exactly 0x8000, whatever the buffer holds, the run of
`securityFix` selects neither row 3 nor row 6 of the table and reads neither
0x84E3 nor 0x8B6F (the third bytes of those rows); whenever it returns true the
security code it has written is neither 3 nor 6. -/
theorem C8_rows_3_6_unreachable (rom : List Nat) :
    Event.row 3 ∉ (securityFix rom 0x8000).log
    ∧ Event.row 6 ∉ (securityFix rom 0x8000).log
    ∧ Event.read 0x84E3 ∉ (securityFix rom 0x8000).log
    ∧ Event.read 0x8B6F ∉ (securityFix rom 0x8000).log
    ∧ ∀ r, (securityFix rom 0x8000).out = .ok (true, r) →
        ∃ m, r[28]? = some m ∧ m ≠ 3 ∧ m ≠ 6 := by
  have hrow : ∀ n, (n = 3 ∨ n = 6) → Event.row n ∉ (securityFix rom 0x8000).log := by
    intro n hn hmem
    rcases (securityFix_log hmem).2 with h | ⟨n2, h, -, hs⟩ | ⟨n2, k, h, -⟩ | h | h | h
    · exact absurd h (by simp)
    · simp only [Event.row.injEq] at h
      subst h
      exact hs ⟨rfl, hn⟩
    · exact absurd h (by simp)
    · exact absurd h (by simp)
    · exact absurd h (by simp)
    · exact absurd h (by simp)
  have hread : ∀ o, 0x8000 ≤ o → Event.read o ∉ (securityFix rom 0x8000).log := by
    intro o ho hmem
    rcases (securityFix_log hmem).2 with h | ⟨n2, h, -⟩ | ⟨n2, k, h, hn, hs, hk⟩ | h | h | h
    · simp only [Event.read.injEq] at h
      omega
    · exact absurd h (by simp)
    · simp only [Event.read.injEq, fixBase_min] at h
      have hne : n2 ≠ 3 ∧ n2 ≠ 6 := by unfold skipped at hs; omega
      have := tableOffset_small n2 hn hne.1 hne.2 k hk
      omega
    · exact absurd h (by simp)
    · exact absurd h (by simp)
    · exact absurd h (by simp)
  refine ⟨hrow 3 (Or.inl rfl), hrow 6 (Or.inr rfl), hread _ (by decide), hread _ (by decide), ?_⟩
  intro r hfix
  obtain ⟨v, m, -, hloop, h | ⟨hne, -, hb, hr⟩⟩ := securityFix_ok (le_refl _) hfix
  · exact absurd h.2.1 (by simp)
  rcases fixLoop_ok rom _ 0x8000 17 0 m hloop with ⟨h, -⟩ | ⟨hm, -, hms, -, -⟩
  · exact absurd h hne
  rw [fixBase_min] at hb hr
  refine ⟨m, by rw [hr]; exact (patched_get_header rom 0 m hb).2.2, ?_⟩
  unfold skipped at hms
  omega

/-- C8 at a 32 KB buffer on which `securityFix` returns true. -/
theorem C8_rows_3_6_unreachable_witness :
    (securityFix imgTagged 0x8000).out = .ok (true, patched imgTagged 0 0)
    ∧ ∃ m, (patched imgTagged 0 0)[28]? = some m ∧ m ≠ 3 ∧ m ≠ 6 :=
  ⟨imgTagged_fix, (C8_rows_3_6_unreachable imgTagged).2.2.2.2 _ imgTagged_fix⟩

/-- C9: for every buffer of exactly 0x8000 bytes, `securityFix` (called with
that length) returns, and every step of its run lies inside the buffer: each
read and each write is at an offset below 0x8000, each row selected is one of
rows 0..15, the writes are at 26, 27 and 28 (header at offset 0, whatever the
first byte); every table offset of every row other than 3 and 6 is below
0x8000, and rows 3 and 6 each have an offset of at least 0x8000. -/
theorem C9_in_bounds_at_min (rom : List Nat) (hsize : rom.length = 0x8000) :
    (∃ b r, (securityFix rom 0x8000).out = .ok (b, r))
    ∧ (∀ e, e ∈ (securityFix rom 0x8000).log → Event.within 0x8000 e)
    ∧ (∀ o, Event.write o ∈ (securityFix rom 0x8000).log → o = 26 ∨ o = 27 ∨ o = 28)
    ∧ fixBase rom 0x8000 = 0
    ∧ (∀ n, n < 16 → n ≠ 3 → n ≠ 6 → ∀ k, k < 3 → tableOffset n k < 0x8000)
    ∧ (∃ k, k < 3 ∧ 0x8000 ≤ tableOffset 3 k)
    ∧ (∃ k, k < 3 ∧ 0x8000 ≤ tableOffset 6 k) := by
  refine ⟨?_, ?_, ?_, fixBase_min rom, tableOffset_small, ⟨2, by decide, by decide⟩,
    ⟨2, by decide, by decide⟩⟩
  · obtain ⟨v, hv⟩ := get_of_lt (show 0 < rom.length by omega)
    obtain ⟨m, hm⟩ := fixLoop_total rom (fixBase rom 0x8000) 0x8000 (by
      intro n hn hs k hk
      have hne : n ≠ 3 ∧ n ≠ 6 := by unfold skipped at hs; omega
      have := tableOffset_small n hn hne.1 hne.2 k hk
      rw [fixBase_min]
      omega) 16 0 (le_refl _)
    by_cases hff : m = 0xff
    · exact ⟨false, rom, (securityFix_of_loop (le_refl _) hv hm).1 hff⟩
    · exact ⟨true, _, (securityFix_of_loop (le_refl _) hv hm).2 hff (by
        rw [fixBase_min]; omega)⟩
  · intro e hmem
    rcases (securityFix_log hmem).2 with h | ⟨n, h, hn, -⟩ | ⟨n, k, h, hn, hs, hk⟩ | h | h | h
    · subst h; exact (by decide : (0 : Nat) < 0x8000)
    · subst h; exact hn
    · subst h
      have hne : n ≠ 3 ∧ n ≠ 6 := by unfold skipped at hs; omega
      have := tableOffset_small n hn hne.1 hne.2 k hk
      show fixBase rom 0x8000 + tableOffset n k < 0x8000
      rw [fixBase_min]
      omega
    · subst h; show fixBase rom 0x8000 + 26 < 0x8000; rw [fixBase_min]; decide
    · subst h; show fixBase rom 0x8000 + 27 < 0x8000; rw [fixBase_min]; decide
    · subst h; show fixBase rom 0x8000 + 28 < 0x8000; rw [fixBase_min]; decide
  · intro o hmem
    rcases (securityFix_log hmem).2 with h | ⟨n, h, -⟩ | ⟨n, k, h, -⟩ | h | h | h
    · exact absurd h (by simp)
    · exact absurd h (by simp)
    · exact absurd h (by simp)
    · simp only [Event.write.injEq, fixBase_min] at h; omega
    · simp only [Event.write.injEq, fixBase_min] at h; omega
    · simp only [Event.write.injEq, fixBase_min] at h; omega

/-- C9 at a 32 KB buffer whose first byte is 0x00. -/
theorem C9_in_bounds_at_min_witness :
    imgZeroFirst.length = 0x8000 ∧ imgZeroFirst[0]? = some 0
    ∧ (∃ b r, (securityFix imgZeroFirst 0x8000).out = .ok (b, r))
    ∧ (∀ e, e ∈ (securityFix imgZeroFirst 0x8000).log → Event.within 0x8000 e)
    ∧ fixBase imgZeroFirst 0x8000 = 0 :=
  have h := C9_in_bounds_at_min imgZeroFirst (image_length _ _)
  ⟨image_length _ _, image_get _ _ (by decide), h.1, h.2.1, h.2.2.2.1⟩

theorem securityCheck_mismatch {rom : List Nat} {v g0 g1 sc : Nat}
    (hv : rom[0]? = some v)
    (hg0 : rom[checkBase rom + 26]? = some g0) (hg1 : rom[checkBase rom + 27]? = some g1)
    (hsc : rom[checkBase rom + 28]? = some sc) (hid : (g0 + g1) ^^^ 0xa5 ≠ sc) :
    (securityCheck rom).out = .ok false := by
  have hf : (firstByteTest rom).out = .ok (v == 0 || v == 0xff) :=
    (firstByteTest_out rom _).2 ⟨v, hv, rfl⟩
  unfold securityCheck
  simp only [bind_eq, pure_eq]
  rw [andThen_of_ok _ hf]
  simp only [checkBase_eq hv]
  rw [andThen_of_ok _ ((readByte_out rom _ g0).2 (by simpa [hdr] using hg0)),
    andThen_of_ok _ ((readByte_out rom _ g1).2 (by simpa [hdr] using hg1)),
    andThen_of_ok _ ((readByte_out rom _ sc).2 (by simpa [hdr] using hsc))]
  have h1 : (((g0 + g1) ^^^ 0xa5) != sc) = true := by simpa using hid
  simp only [h1, if_true]
  rfl

theorem first_of_header {rom : List Nat} {k b : Nat} (h : rom[checkBase rom + k]? = some b) :
    ∃ v, rom[0]? = some v :=
  get_of_lt (by have := get_lt_length h; omega)

theorem xor_a5_ge {x : Nat} (h : 256 ≤ x) : 256 ≤ x ^^^ 0xa5 := by
  by_contra hlt
  have h1 : x ^^^ 0xa5 < 2 ^ 8 := by omega
  have h2 : (x ^^^ 0xa5) ^^^ 0xa5 < 2 ^ 8 := Nat.xor_lt_two_pow h1 (by decide)
  rw [Nat.xor_cancel_right] at h2
  omega

theorem image_isBytes (n : Nat) (ws : List (Nat × Nat)) (h : ∀ w, w ∈ ws → w.2 < 256) :
    isBytes (image n ws) := by
  intro b hb
  unfold image at hb
  simp only [List.mem_map, List.mem_range] at hb
  obtain ⟨i, -, hi⟩ := hb
  subst hi
  cases hl : ws.lookup i with
  | none => simp
  | some x =>
    simp only [Option.getD_some]
    induction ws with
    | nil => simp at hl
    | cons w ws ih =>
      rw [show w = (w.1, w.2) from rfl, List.lookup_cons] at hl
      cases hk : (i == w.1)
      · rw [hk] at hl
        exact ih (fun w2 h2 => h w2 (List.mem_cons_of_mem _ h2)) hl
      · rw [hk] at hl
        simp only [Option.some.injEq] at hl
        rw [← hl]
        exact h w (List.mem_cons_self _ _)

theorem strncmp_diff (rom : List Nat) :
    ∀ n lit p, (∀ k, k < n → ∃ c, lit[k]? = some c ∧ c ≠ 0) →
      (∀ k, k < n → p + k < rom.length) →
      (∃ k, k < n ∧ rom[p + k]? ≠ lit[k]?) →
      ∃ c, (strncmp rom p lit n).out = .ok c ∧ c ≠ 0 := by
  intro n
  induction n with
  | zero => intro lit p _ _ h; obtain ⟨k, hk, -⟩ := h; omega
  | succ n ih =>
    intro lit p hlit hin hdiff
    obtain ⟨c2, hc2, hc0⟩ := hlit 0 (by omega)
    obtain ⟨c1, hc1⟩ := get_of_lt (hin 0 (by omega))
    cases lit with
    | nil => simp at hc2
    | cons c lit =>
      simp only [List.getElem?_cons_zero, Option.some.injEq] at hc2
      subst hc2
      rw [strncmp, bind_eq, andThen_of_ok _ ((readByte_out rom p c1).2 (by simpa using hc1))]
      by_cases heq : c1 = c
      · subst heq
        have h1 : (c1 != c1) = false := by simp
        have h2 : (c1 == 0) = false := by simpa using hc0
        simp only [h1, h2, Bool.false_eq_true, if_false]
        apply ih
        · intro k hk
          obtain ⟨c, hc, hne⟩ := hlit (k + 1) (by omega)
          exact ⟨c, by simpa using hc, hne⟩
        · intro k hk
          have := hin (k + 1) (by omega)
          omega
        · obtain ⟨k, hk, hne⟩ := hdiff
          cases k with
          | zero => exact absurd (by simpa using hc1) hne
          | succ k =>
            refine ⟨k, by omega, ?_⟩
            intro h
            apply hne
            rw [show p + (k + 1) = p + 1 + k by omega, h]
            simp
      · have h1 : (c1 != c) = true := by simpa using heq
        simp only [h1, if_true]
        refine ⟨(c1 : Int) - (c : Int), rfl, ?_⟩
        omega

theorem tigerTag_get {k : Nat} (hk : k < 9) : tigerTag[k]? = tigerLiteral[k]? := by
  unfold tigerTag
  rw [List.getElem?_take_of_lt hk]

theorem systemField_diff {rom : List Nat} {base : Nat} (h : systemField rom base ≠ tigerTag) :
    ∃ k, k < 9 ∧ rom[base + hdr.system + k]? ≠ tigerLiteral[k]? := by
  by_contra hno
  apply h
  apply systemField_of_get
  intro k hk
  rw [tigerTag_get hk]
  by_contra hne
  exact hno ⟨k, hk, hne⟩

theorem tigerLiteral_nonzero : ∀ k, k < 9 → ∃ c, tigerLiteral[k]? = some c ∧ c ≠ 0 := by
  intro k hk
  interval_cases k <;> exact ⟨_, rfl, by decide⟩

/-- The comparison of the system field with the literal: the result is zero when
the nine bytes are the tag, and a value other than zero when they are not. -/
theorem strncmp_system (rom : List Nat) (base : Nat) (hin : base + 28 < rom.length) :
    (systemField rom base = tigerTag
        → (strncmp rom (base + hdr.system) tigerLiteral 9).out = .ok 0)
    ∧ (systemField rom base ≠ tigerTag
        → ∃ c, (strncmp rom (base + hdr.system) tigerLiteral 9).out = .ok c ∧ c ≠ 0) :=
  ⟨strncmp_tag, fun h => strncmp_diff rom 9 tigerLiteral _ tigerLiteral_nonzero
    (fun k hk => by simp only [hdr]; omega) (systemField_diff h)⟩

theorem securityCheck_tagDiff {rom : List Nat} {v g0 g1 sc : Nat} {c : Int}
    (hv : rom[0]? = some v)
    (hg0 : rom[checkBase rom + 26]? = some g0) (hg1 : rom[checkBase rom + 27]? = some g1)
    (hsc : rom[checkBase rom + 28]? = some sc) (hid : (g0 + g1) ^^^ 0xa5 = sc)
    (hs : (strncmp rom (checkBase rom + hdr.system) tigerLiteral 9).out = .ok c) (hc : c ≠ 0) :
    (securityCheck rom).out = .ok false := by
  have hf : (firstByteTest rom).out = .ok (v == 0 || v == 0xff) :=
    (firstByteTest_out rom _).2 ⟨v, hv, rfl⟩
  unfold securityCheck
  simp only [bind_eq, pure_eq]
  rw [andThen_of_ok _ hf]
  simp only [checkBase_eq hv]
  rw [andThen_of_ok _ ((readByte_out rom _ g0).2 (by simpa [hdr] using hg0)),
    andThen_of_ok _ ((readByte_out rom _ g1).2 (by simpa [hdr] using hg1)),
    andThen_of_ok _ ((readByte_out rom _ sc).2 (by simpa [hdr] using hsc))]
  have h1 : (((g0 + g1) ^^^ 0xa5) != sc) = false := by simp [hid]
  simp only [h1, Bool.false_eq_true, if_false]
  rw [andThen_of_ok _ hs]
  have h2 : (c != 0) = true := by simpa using hc
  simp only [h2, if_true]
  rfl

/-- A header inside the buffer whose system field is not the tag is rejected. -/
theorem securityCheck_noTag {rom : List Nat} (hin : checkBase rom + 28 < rom.length)
    (h : systemField rom (checkBase rom) ≠ tigerTag) :
    (securityCheck rom).out = .ok false := by
  obtain ⟨v, hv⟩ := get_of_lt (show 0 < rom.length by omega)
  obtain ⟨g0, hg0⟩ := get_of_lt (show checkBase rom + 26 < rom.length by omega)
  obtain ⟨g1, hg1⟩ := get_of_lt (show checkBase rom + 27 < rom.length by omega)
  obtain ⟨sc, hsc⟩ := get_of_lt hin
  by_cases hid : (g0 + g1) ^^^ 0xa5 = sc
  · obtain ⟨c, hs, hc⟩ := (strncmp_system rom _ hin).2 h
    exact securityCheck_tagDiff hv hg0 hg1 hsc hid hs hc
  · exact securityCheck_mismatch hv hg0 hg1 hsc hid

/-! ## `securityCheck` on a header that passes the tests -/

theorem unk_test_dead (unk : Nat) :
    ((unk &&& (if ((1 : Nat) == 0) = true then 1 else 0)) != 0) = false := by
  have : (if ((1 : Nat) == 0) = true then 1 else 0) = 0 := by decide
  rw [this]
  simp

/-- The result of `securityCheck` once the game-ID and system-tag tests are
passed: it is the comparison of the selected row's checksum with 0x5A. -/
theorem securityCheck_pass {rom : List Nat} {v g0 g1 sc unk : Nat}
    (hv : rom[0]? = some v)
    (hg0 : rom[checkBase rom + 26]? = some g0) (hg1 : rom[checkBase rom + 27]? = some g1)
    (hsc : rom[checkBase rom + 28]? = some sc) (hid : (g0 + g1) ^^^ 0xa5 = sc)
    (hsys : systemField rom (checkBase rom) = tigerTag)
    (hunk : rom[checkBase rom + 4]? = some unk) (b : Bool) :
    (securityCheck rom).out = .ok b
      ↔ ∃ s, rowChecksum rom (checkBase rom) (sc &&& 0xf) = some s ∧ b = (s == 0x5a) := by
  have hf : (firstByteTest rom).out = .ok (v == 0 || v == 0xff) :=
    (firstByteTest_out rom _).2 ⟨v, hv, rfl⟩
  have hlt := and_0xf_lt sc
  unfold securityCheck
  simp only [bind_eq, pure_eq]
  rw [andThen_of_ok _ hf]
  simp only [checkBase_eq hv]
  rw [andThen_of_ok _ ((readByte_out rom _ g0).2 (by simpa [hdr] using hg0)),
    andThen_of_ok _ ((readByte_out rom _ g1).2 (by simpa [hdr] using hg1)),
    andThen_of_ok _ ((readByte_out rom _ sc).2 (by simpa [hdr] using hsc))]
  have h1 : (((g0 + g1) ^^^ 0xa5) != sc) = false := by simp [hid]
  simp only [h1, Bool.false_eq_true, if_false]
  rw [andThen_of_ok _ (strncmp_tag hsys)]
  have h2 : ((0 : Int) != 0) = false := by decide
  simp only [h2, Bool.false_eq_true, if_false]
  rw [andThen_of_ok _ ((readByte_out rom _ unk).2 (by simpa [hdr] using hunk))]
  simp only [unk_test_dead, Bool.false_eq_true, if_false]
  rw [tableRow_of_lt hlt, andThen_of_ok _ rfl]
  simp only [andThen_out_ok, sumLoop_row_out rom _ hlt, Run.ret, Outcome.ok.injEq]
  constructor
  · rintro ⟨s, hs, hb⟩
    exact ⟨s, hs, hb.symm⟩
  · rintro ⟨s, hs, hb⟩
    exact ⟨s, hs, hb.symm⟩

/-! ## What `securityCheck` depends on -/

theorem andThen_congr {α β : Type} {x y : Run α} {f g : α → Run β} (hxy : x = y)
    (hfg : ∀ a, y.out = .ok a → f a = g a) : Run.andThen x f = Run.andThen y g := by
  subst hxy
  unfold Run.andThen
  cases h : x.out with
  | ok a => simp only [hfg a h]
  | fault e => rfl

theorem andThen_mk_ok {α β : Type} (l : List Event) (a : α) (f : α → Run β) :
    Run.andThen ⟨l, .ok a⟩ f = ⟨l ++ (f a).log, (f a).out⟩ := rfl

theorem readByte_congr {rom r : List Nat} {off : Nat} (h : r[off]? = rom[off]?) :
    readByte r off = readByte rom off := by
  unfold readByte
  rw [h]

theorem readByte_andThen_const {β : Type} {rom r : List Nat} {off : Nat}
    (h : r[off]? = none ↔ rom[off]? = none) (K : Run β) :
    Run.andThen (readByte r off) (fun _ => K) = Run.andThen (readByte rom off) (fun _ => K) := by
  unfold Run.andThen readByte
  cases h1 : r[off]? with
  | none =>
    rw [h.1 h1]
  | some a =>
    cases h2 : rom[off]? with
    | none => rw [h.2 h2] at h1; exact absurd h1 (by simp)
    | some b => rfl

theorem strncmp_congr {rom r : List Nat} :
    ∀ n lit p, (∀ k, k < n → r[p + k]? = rom[p + k]?) →
      strncmp r p lit n = strncmp rom p lit n := by
  intro n
  induction n with
  | zero => intro lit p _; cases lit <;> rfl
  | succ n ih =>
    intro lit p h
    cases lit with
    | nil => rfl
    | cons c lit =>
      rw [strncmp, strncmp, bind_eq, bind_eq]
      apply andThen_congr (readByte_congr (by simpa using h 0 (by omega)))
      intro c1 _
      rw [ih lit (p + 1) (fun k hk => by
        have := h (k + 1) (by omega)
        rwa [show p + (k + 1) = p + 1 + k by omega] at this)]

theorem sumLoop_congr {rom r : List Nat} {base n : Nat} (hn : n < 16)
    (h : ∀ k, k < 3 → r[base + tableOffset n k]? = rom[base + tableOffset n k]?) :
    sumLoop r base 3 (securityTable.getD n []) 0
      = sumLoop rom base 3 (securityTable.getD n []) 0 := by
  rw [sumLoop_row r base hn, sumLoop_row rom base hn, readByte_congr (h 0 (by omega)),
    readByte_congr (h 1 (by omega)), readByte_congr (h 2 (by omega))]

/-- Two buffers give the same run of `securityCheck` when they agree on the
first byte, on the header bytes 5..28 and on the bytes the table addresses, all
counted from the header offset, and the `unk` byte lies inside both or outside
both. -/
theorem securityCheck_congr {rom r : List Nat} (h0 : r[0]? = rom[0]?)
    (hh : ∀ k, 5 ≤ k → k ≤ 28 → r[checkBase rom + k]? = rom[checkBase rom + k]?)
    (hunk : r[checkBase rom + 4]? = none ↔ rom[checkBase rom + 4]? = none)
    (ht : ∀ n, n < 16 → ∀ k, k < 3 →
      r[checkBase rom + tableOffset n k]? = rom[checkBase rom + tableOffset n k]?) :
    securityCheck r = securityCheck rom := by
  have hf : firstByteTest r = firstByteTest rom := by
    unfold firstByteTest
    rw [readByte_congr h0]
  unfold securityCheck
  simp only [bind_eq, pure_eq]
  apply andThen_congr hf
  intro skip hskip
  obtain ⟨v, hv, hsk⟩ := (firstByteTest_out rom skip).1 hskip
  subst hsk
  simp only [checkBase_eq hv]
  apply andThen_congr (readByte_congr (hh 26 (by omega) (by omega)))
  intro g0 _
  apply andThen_congr (readByte_congr (hh 27 (by omega) (by omega)))
  intro g1 _
  apply andThen_congr (readByte_congr (hh 28 (by omega) (by omega)))
  intro sc _
  rcases Bool.eq_false_or_eq_true (((g0 + g1) ^^^ 0xa5) != sc) with hc | hc
  · simp only [hc, if_true]
  simp only [hc, Bool.false_eq_true, if_false]
  apply andThen_congr (strncmp_congr 9 tigerLiteral _ (fun k hk => by
    have := hh (5 + k) (by omega) (by omega)
    simpa [hdr, Nat.add_assoc] using this))
  intro c _
  rcases Bool.eq_false_or_eq_true (c != 0) with hc2 | hc2
  · simp only [hc2, if_true]
  simp only [hc2, Bool.false_eq_true, if_false, unk_test_dead]
  rw [tableRow_of_lt (and_0xf_lt sc)]
  simp only [andThen_mk_ok]
  rw [sumLoop_congr (and_0xf_lt sc) (ht _ (and_0xf_lt sc))]
  exact readByte_andThen_const (by simpa [hdr] using hunk) _

theorem mem_log_left {α β : Type} {x : Run α} (f : α → Run β) {e : Event} (h : e ∈ x.log) :
    e ∈ (Run.andThen x f).log := by
  unfold Run.andThen
  cases hx : x.out with
  | ok a => exact List.mem_append_left _ h
  | fault e0 => exact h

theorem mem_log_right {α β : Type} {x : Run α} {a : α} (f : α → Run β) {e : Event}
    (hx : x.out = .ok a) (h : e ∈ (f a).log) : e ∈ (Run.andThen x f).log := by
  rw [andThen_of_ok f hx]
  exact List.mem_append_right _ h

/-- The first header byte `securityCheck` reads is the game ID at the header
offset. -/
theorem securityCheck_reads_header {rom : List Nat} {v : Nat} (hv : rom[0]? = some v) :
    Event.read (checkBase rom + 26) ∈ (securityCheck rom).log := by
  have hf : (firstByteTest rom).out = .ok (v == 0 || v == 0xff) :=
    (firstByteTest_out rom _).2 ⟨v, hv, rfl⟩
  unfold securityCheck
  simp only [bind_eq, pure_eq]
  apply mem_log_right _ hf
  simp only [checkBase_eq hv]
  apply mem_log_left
  simp [readByte_log, hdr]

theorem checkBase_of_first {rom : List Nat} (h : rom[0]? = some 0 ∨ rom[0]? = some 0xff) :
    checkBase rom = 0x40000 := by
  unfold checkBase
  rw [if_pos h]

theorem checkBase_of_other {rom : List Nat} {v : Nat} (hv : rom[0]? = some v) (h0 : v ≠ 0)
    (hff : v ≠ 0xff) : checkBase rom = 0 := by
  unfold checkBase
  rw [hv]
  simp [h0, hff]

/-- C11: `securityCheck` works on the header at 0x40000 when the first byte is
0x00 or 0xFF and on the header at 0 for every other first byte. In the first
case its whole run is the same for every buffer that differs only in bytes
1..31, and the header byte it reads first is at 0x4001A; in the second case its
run is the same for every buffer that differs only in bytes 0x40000..0x4001F,
and the header byte it reads first is at 26. -/
theorem C11_header_location (rom r : List Nat) :
    ((rom[0]? = some 0 ∨ rom[0]? = some 0xff) →
        (∀ k, (k = 0 ∨ 32 ≤ k) → r[k]? = rom[k]?) →
        securityCheck r = securityCheck rom ∧ checkBase rom = 0x40000
          ∧ Event.read 0x4001A ∈ (securityCheck rom).log)
    ∧ (∀ v, rom[0]? = some v → v ≠ 0 → v ≠ 0xff →
        (∀ k, (k < 0x40000 ∨ 0x40020 ≤ k) → r[k]? = rom[k]?) →
        securityCheck r = securityCheck rom ∧ checkBase rom = 0
          ∧ Event.read 26 ∈ (securityCheck rom).log) := by
  constructor
  · intro hfirst hsame
    have hb := checkBase_of_first hfirst
    obtain ⟨v, hv⟩ : ∃ v, rom[0]? = some v := by
      rcases hfirst with h | h
      · exact ⟨_, h⟩
      · exact ⟨_, h⟩
    refine ⟨securityCheck_congr (hsame 0 (Or.inl rfl)) ?_ ?_ ?_, hb, ?_⟩
    · intro k _ _
      exact hsame _ (Or.inr (by omega))
    · rw [hsame _ (Or.inr (by omega))]
    · intro n _ k _
      exact hsame _ (Or.inr (by omega))
    · have := securityCheck_reads_header hv
      rwa [hb] at this
  · intro v hv h0 hff hsame
    have hb := checkBase_of_other hv h0 hff
    refine ⟨securityCheck_congr (hsame 0 (Or.inl (by omega))) ?_ ?_ ?_, hb, ?_⟩
    · intro k _ _
      exact hsame _ (Or.inl (by omega))
    · rw [hsame _ (Or.inl (by omega))]
    · intro n hn k hk
      have := (tableOffset_bounds n hn k hk).2
      exact hsame _ (Or.inl (by omega))
    · have := securityCheck_reads_header hv
      rwa [hb] at this

/-- C11 at two buffers of 0x48000 bytes: first byte 0x00 with byte 5 changed, and
first byte 0x01 with byte 0x40010 changed. -/
theorem C11_header_location_witness :
    (imgBanked[0]? = some 0 ∧ (imgBanked.set 5 0x99)[5]? = some 0x99 ∧ imgBanked[5]? = some 0
      ∧ securityCheck (imgBanked.set 5 0x99) = securityCheck imgBanked)
    ∧ (imgLong[0]? = some 1 ∧ (imgLong.set 0x40010 0x99)[0x40010]? = some 0x99
      ∧ imgLong[0x40010]? = some 0
      ∧ securityCheck (imgLong.set 0x40010 0x99) = securityCheck imgLong) :=
  have hA : imgBanked[0]? = some 0 := image_get _ _ (by decide)
  have hB : imgLong[0]? = some 1 := image_get _ _ (by decide)
  ⟨⟨hA, by rw [List.getElem?_set_self (by rw [imgBanked, image_length]; decide)],
      image_get _ _ (by decide),
      ((C11_header_location imgBanked (imgBanked.set 5 0x99)).1 (Or.inl hA)
        (fun k hk => List.getElem?_set_ne (by omega))).1⟩,
    ⟨hB, by rw [List.getElem?_set_self (by rw [imgLong, image_length]; decide)],
      image_get _ _ (by decide),
      ((C11_header_location imgLong (imgLong.set 0x40010 0x99)).2 1 hB (by decide) (by decide)
        (fun k hk => List.getElem?_set_ne (by omega))).1⟩⟩

theorem base_of_first_one {rom : List Nat} (h : rom[0]? = some 1) : checkBase rom = 0 :=
  checkBase_of_other h (by decide) (by decide)

/-- C12: for every buffer whose header passes the game-ID and system-tag tests,
`securityCheck` returns true exactly when the three bytes addressed by table
row `securityCode & 0xF` sum modulo 256 to 0x5A, and false exactly when they sum
to another value; the row index is `securityCode mod 16`, whatever the upper
nibble of the security code. -/
theorem C12_low_nibble_row (rom : List Nat) (g0 g1 sc : Nat)
    (hg0 : rom[checkBase rom + 26]? = some g0) (hg1 : rom[checkBase rom + 27]? = some g1)
    (hsc : rom[checkBase rom + 28]? = some sc) (hid : (g0 + g1) ^^^ 0xa5 = sc)
    (hsys : systemField rom (checkBase rom) = tigerTag) :
    ((securityCheck rom).out = .ok true
        ↔ rowChecksum rom (checkBase rom) (sc % 16) = some 0x5a)
    ∧ ((securityCheck rom).out = .ok false
        ↔ ∃ s, rowChecksum rom (checkBase rom) (sc % 16) = some s ∧ s ≠ 0x5a)
    ∧ sc &&& 0xf = sc % 16 := by
  obtain ⟨v, hv⟩ := first_of_header hsc
  obtain ⟨unk, hunk⟩ := get_of_lt
    (show checkBase rom + 4 < rom.length by have := get_lt_length hsc; omega)
  have hmask : sc &&& 0xf = sc % 16 := Nat.and_pow_two_sub_one_eq_mod sc 4
  have key := fun b => securityCheck_pass hv hg0 hg1 hsc hid hsys hunk b
  rw [hmask] at key
  refine ⟨?_, ?_, hmask⟩
  · rw [key true]
    constructor
    · rintro ⟨s, hs, hb⟩
      have : s = 0x5a := by simpa using hb.symm
      rw [hs, this]
    · intro h
      exact ⟨0x5a, h, rfl⟩
  · rw [key false]
    constructor
    · rintro ⟨s, hs, hb⟩
      exact ⟨s, hs, by simpa using hb.symm⟩
    · rintro ⟨s, hs, hne⟩
      exact ⟨s, hs, by simpa using hne⟩

/-- C12 at a 32 KB buffer whose security code is 0x10: row 0 is the row summed,
and `securityCheck` returns true. -/
theorem C12_low_nibble_row_witness :
    imgHighCode[checkBase imgHighCode + 28]? = some 0x10
    ∧ (0xb5 + 0) ^^^ 0xa5 = 0x10
    ∧ systemField imgHighCode (checkBase imgHighCode) = tigerTag
    ∧ rowChecksum imgHighCode (checkBase imgHighCode) 0 = some 0x5a
    ∧ (securityCheck imgHighCode).out = .ok true :=
  have hb : checkBase imgHighCode = 0 := base_of_first_one (image_get _ _ (by decide))
  have hsc : imgHighCode[checkBase imgHighCode + 28]? = some 0x10 := by
    rw [hb]; exact image_get _ _ (by decide)
  have hsys : systemField imgHighCode (checkBase imgHighCode) = tigerTag := by
    rw [hb]
    apply systemField_of_get
    intro k hk
    interval_cases k <;> exact image_get _ _ (by decide)
  have hck : rowChecksum imgHighCode (checkBase imgHighCode) 0 = some 0x5a := by
    rw [hb]
    exact rowChecksum_of_get (image_get _ _ (by decide)) (image_get _ _ (by decide))
      (image_get _ _ (by decide))
  ⟨hsc, by decide, hsys, hck,
    (C12_low_nibble_row imgHighCode 0xb5 0 0x10 (by rw [hb]; exact image_get _ _ (by decide))
      (by rw [hb]; exact image_get _ _ (by decide)) hsc (by decide) hsys).1.2 hck⟩

/-- C13: for every buffer whose header has (gameId[0] + gameId[1]) XOR 0xA5
different from securityCode, `securityCheck` returns false, whatever the other
bytes are. -/
theorem C13_id_mismatch (rom : List Nat) (g0 g1 sc : Nat)
    (hg0 : rom[checkBase rom + 26]? = some g0) (hg1 : rom[checkBase rom + 27]? = some g1)
    (hsc : rom[checkBase rom + 28]? = some sc) (hid : (g0 + g1) ^^^ 0xa5 ≠ sc) :
    (securityCheck rom).out = .ok false := by
  obtain ⟨v, hv⟩ := first_of_header hsc
  exact securityCheck_mismatch hv hg0 hg1 hsc hid

/-- C13 at a 32 KB buffer with the system tag and a matching row, whose game ID
and security code are all zero. -/
theorem C13_id_mismatch_witness :
    imgTagged[checkBase imgTagged + 26]? = some 0 ∧ imgTagged[checkBase imgTagged + 27]? = some 0
    ∧ imgTagged[checkBase imgTagged + 28]? = some 0 ∧ (0 + 0) ^^^ 0xa5 ≠ 0
    ∧ (securityCheck imgTagged).out = .ok false :=
  have hb : checkBase imgTagged = 0 := base_of_first_one (image_get _ _ (by decide))
  have h26 : imgTagged[checkBase imgTagged + 26]? = some 0 := by
    rw [hb]; exact image_get _ _ (by decide)
  have h27 : imgTagged[checkBase imgTagged + 27]? = some 0 := by
    rw [hb]; exact image_get _ _ (by decide)
  have h28 : imgTagged[checkBase imgTagged + 28]? = some 0 := by
    rw [hb]; exact image_get _ _ (by decide)
  ⟨h26, h27, h28, by decide, C13_id_mismatch imgTagged 0 0 0 h26 h27 h28 (by decide)⟩

/-- C14: for every buffer whose header lies inside it, `securityCheck` returns
false when the nine bytes of the system field are not the nine ASCII bytes of
`TigerDMGC`; the bounded comparison the code makes yields zero exactly when
the nine bytes match, a zero byte in the field being a mismatch like any other. -/
theorem C14_system_tag (rom : List Nat) (hin : checkBase rom + 28 < rom.length) :
    (systemField rom (checkBase rom) ≠ tigerTag → (securityCheck rom).out = .ok false)
    ∧ (∃ c, (strncmp rom (checkBase rom + hdr.system) tigerLiteral 9).out = .ok c)
    ∧ (∀ c, (strncmp rom (checkBase rom + hdr.system) tigerLiteral 9).out = .ok c →
        (c = 0 ↔ systemField rom (checkBase rom) = tigerTag)) := by
  obtain ⟨hyes, hno⟩ := strncmp_system rom (checkBase rom) hin
  refine ⟨securityCheck_noTag hin, ?_, ?_⟩
  · by_cases h : systemField rom (checkBase rom) = tigerTag
    · exact ⟨0, hyes h⟩
    · obtain ⟨c, hc, -⟩ := hno h
      exact ⟨c, hc⟩
  · intro c hc
    by_cases h : systemField rom (checkBase rom) = tigerTag
    · rw [hyes h] at hc
      simp only [Outcome.ok.injEq] at hc
      exact ⟨fun _ => h, fun _ => hc.symm⟩
    · obtain ⟨c2, hc2, hne⟩ := hno h
      rw [hc2] at hc
      simp only [Outcome.ok.injEq] at hc
      subst hc
      exact ⟨fun h0 => absurd h0 hne, fun h1 => absurd h1 h⟩

/-- C14 at a 32 KB buffer with a complete header in which the sixth byte of the
system field is zero: `securityCheck` returns false. -/
theorem C14_system_tag_witness :
    checkBase imgTagZero + 28 < imgTagZero.length
    ∧ imgTagZero[checkBase imgTagZero + 10]? = some 0
    ∧ systemField imgTagZero (checkBase imgTagZero) ≠ tigerTag
    ∧ (securityCheck imgTagZero).out = .ok false :=
  have hb : checkBase imgTagZero = 0 := base_of_first_one (image_get _ _ (by decide))
  have hin : checkBase imgTagZero + 28 < imgTagZero.length := by
    rw [hb, imgTagZero, image_length]; decide
  have h10 : imgTagZero[checkBase imgTagZero + 10]? = some 0 := by
    rw [hb]; exact image_get _ _ (by decide)
  have hne : systemField imgTagZero (checkBase imgTagZero) ≠ tigerTag := by
    intro h
    obtain ⟨c, hc, hc0, hr⟩ := systemField_get h (show 5 < 9 by decide)
    have h10b : imgTagZero[0 + hdr.system + 5]? = some 0 := image_get _ _ (by decide)
    rw [hb, h10b] at hr
    exact hc0 (Option.some.inj hr).symm
  ⟨hin, h10, hne, (C14_system_tag imgTagZero hin).1 hne⟩

/-! ## Repairing twice, and checking after a repair -/

theorem base_agree {rom : List Nat} {length : Nat}
    (h : ¬ (rom[0]? = some 0 ∨ rom[0]? = some 0xff) ∨ length > 0x8000) :
    checkBase rom = fixBase rom length := by
  unfold checkBase fixBase
  by_cases hf : rom[0]? = some 0 ∨ rom[0]? = some 0xff
  · rcases h with h | h
    · exact absurd hf h
    · rw [if_pos hf, if_pos ⟨hf, h⟩]
  · rw [if_neg hf, if_neg (fun hc => hf hc.1)]

theorem fixBase_congr {rom r : List Nat} (h : r[0]? = rom[0]?) (length : Nat) :
    fixBase r length = fixBase rom length := by
  unfold fixBase
  rw [h]

theorem patched_idem (rom : List Nat) (base m : Nat) (hb : base + 28 < rom.length) :
    patched (patched rom base m) base m = patched rom base m := by
  have hb2 : base + 28 < (patched rom base m).length := by rw [patched_length]; exact hb
  obtain ⟨p26, p27, p28⟩ := patched_get_header rom base m hb
  obtain ⟨q26, q27, q28⟩ := patched_get_header (patched rom base m) base m hb2
  apply List.ext_getElem?
  intro k
  by_cases h26 : k = base + 26
  · rw [h26, p26, q26]
  by_cases h27 : k = base + 27
  · rw [h27, p27, q27]
  by_cases h28 : k = base + 28
  · rw [h28, p28, q28]
  exact patched_get_other _ base m h26 h27 h28

/-- C15: for every buffer on which `securityFix` returns true, if the header's
system field is `TigerDMGC` and `securityCheck` uses the header location
`securityFix` used (first byte not 0x00/0xFF, or length above 0x8000), then
`securityCheck` on the repaired buffer returns true: no table offset is one of
the header offsets 26..28, and the row recorded in the header has the checksum
0x5A before and after the three writes. -/
theorem C15_check_after_repair (rom r : List Nat) (length : Nat)
    (hfix : (securityFix rom length).out = .ok (true, r))
    (hsys : systemField rom (fixBase rom length) = tigerTag)
    (hloc : ¬ (rom[0]? = some 0 ∨ rom[0]? = some 0xff) ∨ length > 0x8000) :
    (securityCheck r).out = .ok true
    ∧ (∀ n, n < 16 → ∀ k, k < 3 → 28 < tableOffset n k)
    ∧ ∃ m, m < 16 ∧ r[fixBase rom length + 28]? = some m
        ∧ rowChecksum rom (fixBase rom length) m = some 0x5a
        ∧ rowChecksum r (fixBase rom length) m = some 0x5a := by
  have hlen := securityFix_true_len hfix
  refine ⟨check_after_fix hlen hfix hsys (base_agree hloc),
    fun n hn k hk => (tableOffset_bounds n hn k hk).1, ?_⟩
  obtain ⟨v, m, hv, hloop, h | ⟨hne, -, hb, hr⟩⟩ := securityFix_ok hlen hfix
  · exact absurd h.2.1 (by simp)
  rcases fixLoop_ok rom _ length 17 0 m hloop with ⟨h, -⟩ | ⟨hm, -, -, hck, -⟩
  · exact absurd h hne
  refine ⟨m, hm, by rw [hr]; exact (patched_get_header rom _ m hb).2.2, hck, ?_⟩
  rw [hr, rowChecksum_patched rom _ m hm]
  exact hck

/-- C15 at the buffer of 0x48000 bytes whose header is at 0x40000. -/
theorem C15_check_after_repair_witness :
    (securityFix imgBanked 0x48000).out = .ok (true, patched imgBanked 0x40000 0)
    ∧ systemField imgBanked (fixBase imgBanked 0x48000) = tigerTag
    ∧ 0x48000 > 0x8000
    ∧ (securityCheck (patched imgBanked 0x40000 0)).out = .ok true :=
  have hsys : systemField imgBanked (fixBase imgBanked 0x48000) = tigerTag := by
    rw [imgBanked_fixBase]; exact imgBanked_tag
  ⟨imgBanked_fix, hsys, by decide,
    (C15_check_after_repair imgBanked (patched imgBanked 0x40000 0) 0x48000 imgBanked_fix hsys
      (Or.inr (by decide))).1⟩

/-- C17: two buffers of the same length that differ only in the header's `unk`
byte (header offset 4) give the same run of `securityCheck`, and so the same
result. -/
theorem C17_unk_irrelevant (rom r : List Nat) (hlen : r.length = rom.length)
    (hsame : ∀ k, k ≠ checkBase rom + 4 → r[k]? = rom[k]?) :
    securityCheck r = securityCheck rom
    ∧ (securityCheck r).out = (securityCheck rom).out := by
  have h : securityCheck r = securityCheck rom := by
    apply securityCheck_congr (hsame 0 (by omega))
    · intro k h5 _
      exact hsame _ (by omega)
    · rw [List.getElem?_eq_none_iff, List.getElem?_eq_none_iff, hlen]
    · intro n hn k hk
      have := (tableOffset_bounds n hn k hk).1
      exact hsame _ (by omega)
  exact ⟨h, by rw [h]⟩

/-- C17 at the 32 KB buffer with a complete header, `unk` changed from 1 to 0. -/
theorem C17_unk_irrelevant_witness :
    imgValid[checkBase imgValid + 4]? = some 1
    ∧ (imgValid.set (checkBase imgValid + 4) 0)[checkBase imgValid + 4]? = some 0
    ∧ (securityCheck (imgValid.set (checkBase imgValid + 4) 0)).out
        = (securityCheck imgValid).out :=
  have hb : checkBase imgValid = 0 := base_of_first_one (image_get _ _ (by decide))
  ⟨by rw [hb]; exact image_get _ _ (by decide),
    by rw [hb, List.getElem?_set_self (by rw [imgValid, image_length]; decide)],
    (C17_unk_irrelevant imgValid (imgValid.set (checkBase imgValid + 4) 0) (List.length_set _ _ _)
      (fun k hk => List.getElem?_set_ne (Ne.symm hk))).2⟩

/-- C18: for every buffer of bytes whose header has gameId[0] + gameId[1] of at
least 256, `securityCheck` returns false whatever the security code is: the
sum is not reduced modulo 256, so its XOR with 0xA5 is at least 256 and the
security code is below 256. -/
theorem C18_id_sum_not_reduced (rom : List Nat) (g0 g1 sc : Nat) (hbytes : isBytes rom)
    (hg0 : rom[checkBase rom + 26]? = some g0) (hg1 : rom[checkBase rom + 27]? = some g1)
    (hsc : rom[checkBase rom + 28]? = some sc) (hsum : 256 ≤ g0 + g1) :
    (securityCheck rom).out = .ok false ∧ 256 ≤ (g0 + g1) ^^^ 0xa5 ∧ sc < 256 := by
  have hx := xor_a5_ge hsum
  have hlt : sc < 256 := hbytes sc (List.getElem?_mem hsc)
  obtain ⟨v, hv⟩ := first_of_header hsc
  exact ⟨securityCheck_mismatch hv hg0 hg1 hsc (by omega), hx, hlt⟩

/-- C18 at a 32 KB buffer with game ID (0xFF, 0xFF) and an otherwise complete
header. -/
theorem C18_id_sum_not_reduced_witness :
    isBytes imgWideId ∧ imgWideId[checkBase imgWideId + 26]? = some 0xff
    ∧ imgWideId[checkBase imgWideId + 27]? = some 0xff ∧ 256 ≤ 0xff + 0xff
    ∧ (securityCheck imgWideId).out = .ok false :=
  have hb : checkBase imgWideId = 0 := base_of_first_one (image_get _ _ (by decide))
  have hbytes : isBytes imgWideId := image_isBytes _ _ (by decide)
  have h26 : imgWideId[checkBase imgWideId + 26]? = some 0xff := by
    rw [hb]; exact image_get _ _ (by decide)
  have h27 : imgWideId[checkBase imgWideId + 27]? = some 0xff := by
    rw [hb]; exact image_get _ _ (by decide)
  ⟨hbytes, h26, h27, by decide,
    (C18_id_sum_not_reduced imgWideId 0xff 0xff 0 hbytes h26 h27
      (by rw [hb]; exact image_get _ _ (by decide)) (by decide)).1⟩

/-- C19: for every buffer on which `securityFix` returns true, `securityFix`
on the resulting buffer returns true again, its search ends on the same row,
and the buffer it leaves is the one it was given. -/
theorem C19_fix_idempotent (rom r : List Nat) (length : Nat)
    (hfix : (securityFix rom length).out = .ok (true, r)) :
    (securityFix r length).out = .ok (true, r)
    ∧ fixBase r length = fixBase rom length
    ∧ ∃ m, m < 16 ∧ (fixLoop rom (fixBase rom length) length 17 0).out = .ok m
        ∧ (fixLoop r (fixBase r length) length 17 0).out = .ok m := by
  have hlen := securityFix_true_len hfix
  obtain ⟨v, m, hv, hloop, h | ⟨hne, -, hb, hr⟩⟩ := securityFix_ok hlen hfix
  · exact absurd h.2.1 (by simp)
  rcases fixLoop_ok rom _ length 17 0 m hloop with ⟨h, -⟩ | ⟨hm, -, hms, hck, hall⟩
  · exact absurd h hne
  have hr0 : r[0]? = rom[0]? := by
    rw [hr]
    exact patched_get_other rom _ m (by omega) (by omega) (by omega)
  have hbase := fixBase_congr hr0 length
  have hrow : ∀ n, n < 16 →
      rowChecksum r (fixBase rom length) n = rowChecksum rom (fixBase rom length) n := by
    intro n hn
    rw [hr]
    exact rowChecksum_patched rom _ m hn
  have hloop2 : (fixLoop r (fixBase r length) length 17 0).out = .ok m := by
    rw [hbase]
    apply fixLoop_found r _ length hm hms (by rw [hrow m hm]; exact hck) 16 0
      (Nat.zero_le _) (le_refl _)
    intro j h1 h2 h3
    rw [hrow j (by omega)]
    exact hall j h1 h2 h3
  refine ⟨?_, hbase, m, hm, hloop, hloop2⟩
  have h2 := (securityFix_of_loop hlen (by rw [hr0]; exact hv) hloop2).2 hne
    (by rw [hbase, hr, patched_length]; exact hb)
  rw [h2, hbase, hr, patched_idem rom _ m hb]

/-- C19 at a 32 KB buffer in which row 0 sums to 0x5A. -/
theorem C19_fix_idempotent_witness :
    (securityFix imgTagged 0x8000).out = .ok (true, patched imgTagged 0 0)
    ∧ (securityFix (patched imgTagged 0 0) 0x8000).out = .ok (true, patched imgTagged 0 0) :=
  ⟨imgTagged_fix,
    (C19_fix_idempotent imgTagged (patched imgTagged 0 0) 0x8000 imgTagged_fix).1⟩

/-! ## Reads outside the buffer -/

theorem readByte_of_none {rom : List Nat} {off : Nat} (h : rom[off]? = none) :
    readByte rom off = ⟨[.read off], .fault (.romOob off)⟩ := by
  unfold readByte; rw [h]

theorem sumLoop_row_oob2 (rom : List Nat) (base : Nat) {n b0 b1 : Nat} (hn : n < 16)
    (h0 : rom[base + tableOffset n 0]? = some b0) (h1 : rom[base + tableOffset n 1]? = some b1)
    (h2 : rom[base + tableOffset n 2]? = none) :
    sumLoop rom base 3 (securityTable.getD n []) 0
      = ⟨[.read (base + tableOffset n 0), .read (base + tableOffset n 1),
          .read (base + tableOffset n 2)], .fault (.romOob (base + tableOffset n 2))⟩ := by
  rw [sumLoop_row rom base hn, readByte_of_get h0, readByte_of_get h1, readByte_of_none h2]
  rfl

theorem rowChecksum_none2 {rom : List Nat} {base n : Nat}
    (h2 : rom[base + tableOffset n 2]? = none) : rowChecksum rom base n = none := by
  unfold rowChecksum
  rw [h2]
  cases rom[base + tableOffset n 0]? <;> cases rom[base + tableOffset n 1]? <;> rfl

/-- The search loop on a buffer that ends before the third byte of row `m`, when
no evaluated row before `m` matches: the run ends in the read of that byte. -/
theorem fixLoop_oob (rom : List Nat) (base length : Nat) {m b0 b1 : Nat} (hm : m < 16)
    (hms : ¬ skipped length m)
    (h0 : rom[base + tableOffset m 0]? = some b0) (h1 : rom[base + tableOffset m 1]? = some b1)
    (h2 : rom[base + tableOffset m 2]? = none) :
    ∀ fuel i, i ≤ m → 16 ≤ fuel + i →
      (∀ j, i ≤ j → j < m → ¬ skipped length j →
          ∃ s, rowChecksum rom base j = some s ∧ s ≠ 0x5a) →
      (fixLoop rom base length (fuel + 1) i).out = .fault (.romOob (base + tableOffset m 2))
      ∧ Event.row m ∈ (fixLoop rom base length (fuel + 1) i).log
      ∧ Event.read (base + tableOffset m 2) ∈ (fixLoop rom base length (fuel + 1) i).log := by
  intro fuel
  induction fuel with
  | zero => intro i h1 h2 _; omega
  | succ fuel ih =>
    intro i him hfuel hall
    have hi : i < 16 := by omega
    obtain ⟨hr16, hrs, hir, hbelow⟩ := rowAt_facts length hi
    have hrm : rowAt length i ≤ m := by
      by_contra hlt
      exact hms (hbelow m him (by omega))
    rw [fixLoop_succ rom base length (fuel + 1) hi, tableRow_of_lt hr16, andThen_mk_ok]
    by_cases heq : rowAt length i = m
    · rw [heq, sumLoop_row_oob2 rom base hm h0 h1 h2, andThen_of_fault _ rfl]
      exact ⟨rfl, by simp, by simp⟩
    · obtain ⟨s, hs, hne⟩ := hall (rowAt length i) hir (by omega) hrs
      have hsum := (sumLoop_row_out rom base hr16 s).2 hs
      have hb : (s == 0x5a) = false := by simpa using hne
      obtain ⟨r1, r2, r3⟩ := ih (rowAt length i + 1) (by omega) (by omega)
        (fun j h1 h2 h3 => hall j (by omega) h2 h3)
      rw [andThen_of_ok _ hsum]
      simp only [hb, Bool.false_eq_true, if_false]
      exact ⟨r1, by simp [r2], by simp [r3]⟩

/-- A fault of the search loop is the outcome of `securityFix`, and the steps
of the loop are steps of `securityFix`. -/
theorem securityFix_loop_fault {rom : List Nat} {length v : Nat} {e : Fault}
    (hlen : 0x8000 ≤ length) (hv : rom[0]? = some v)
    (hm : (fixLoop rom (fixBase rom length) length 17 0).out = .fault e) :
    (securityFix rom length).out = .fault e
    ∧ ∀ ev, ev ∈ (fixLoop rom (fixBase rom length) length 17 0).log →
        ev ∈ (securityFix rom length).log := by
  have hl : ¬ length < 0x8000 := by omega
  have hf : (firstByteTest rom).out = .ok (v == 0 || v == 0xff) :=
    (firstByteTest_out rom _).2 ⟨v, hv, rfl⟩
  unfold securityFix
  simp only [hl, if_false, bind_eq, pure_eq]
  rw [andThen_of_ok _ hf]
  simp only [fixBase_eq hv length]
  rw [andThen_of_fault _ hm]
  exact ⟨rfl, fun ev hev => List.mem_append_right _ hev⟩

/-- A run of `securityFix` returns when the buffer is not empty and holds the
header bytes and every byte of every row that is not passed over. -/
theorem securityFix_total {rom : List Nat} {length : Nat} (hlen : 0x8000 ≤ length)
    (h28 : fixBase rom length + 28 < rom.length)
    (hb : ∀ n, n < 16 → ¬ skipped length n → ∀ k, k < 3 →
      fixBase rom length + tableOffset n k < rom.length) :
    ∃ b r, (securityFix rom length).out = .ok (b, r) := by
  obtain ⟨v, hv⟩ := get_of_lt (show 0 < rom.length by omega)
  obtain ⟨m, hm⟩ := fixLoop_total rom (fixBase rom length) length hb 16 0 (le_refl _)
  by_cases hff : m = 0xff
  · exact ⟨false, rom, (securityFix_of_loop hlen hv hm).1 hff⟩
  · exact ⟨true, _, (securityFix_of_loop hlen hv hm).2 hff h28⟩

theorem imageOne_get {L i b : Nat} (hi : 0 < i) (h : (image L [(0, 1)])[i]? = some b) :
    b = 0 := by
  have hlt : i < L := by
    have := get_lt_length h
    rwa [image_length] at this
  rw [image_get _ _ hlt] at h
  have hne : (i == 0) = false := by simpa using (show i ≠ 0 by omega)
  simp only [List.lookup_cons, hne, List.lookup_nil, Option.getD_none, Option.some.injEq] at h
  exact h.symm

theorem imageOne_row {L n s : Nat} (hn : n < 16)
    (h : rowChecksum (image L [(0, 1)]) 0 n = some s) : s = 0 := by
  have t0 := (tableOffset_bounds n hn 0 (by omega)).1
  have t1 := (tableOffset_bounds n hn 1 (by omega)).1
  have t2 := (tableOffset_bounds n hn 2 (by omega)).1
  unfold rowChecksum at h
  cases h0 : (image L [(0, 1)])[0 + tableOffset n 0]? with
  | none => rw [h0] at h; simp at h
  | some b0 =>
    cases h1 : (image L [(0, 1)])[0 + tableOffset n 1]? with
    | none => rw [h0, h1] at h; simp at h
    | some b1 =>
      cases h2 : (image L [(0, 1)])[0 + tableOffset n 2]? with
      | none => rw [h0, h1, h2] at h; simp at h
      | some b2 =>
        simp only [h0, h1, h2, Option.some.injEq] at h
        have e0 := imageOne_get (by omega) h0
        have e1 := imageOne_get (by omega) h1
        have e2 := imageOne_get (by omega) h2
        subst e0 e1 e2
        omega

theorem imageOne_fixBase (L length : Nat) (hL : 0 < L) :
    fixBase (image L [(0, 1)]) length = 0 := by
  unfold fixBase
  rw [show (image L [(0, 1)])[0]? = some 1 from image_get _ _ hL]
  simp

/-- On the buffer of `L` bytes that is 1 followed by zeros, with `L` above
0x8000 and at most 0x8B6F, `securityFix` does not return. -/
theorem imageOne_no_return {L : Nat} (h1 : 0x8000 < L) (h2 : L ≤ 0x8B6F) (b : Bool)
    (r : List Nat) : (securityFix (image L [(0, 1)]) L).out ≠ .ok (b, r) := by
  intro h
  obtain ⟨v, m, -, hloop, -⟩ := securityFix_ok (by omega) h
  rw [imageOne_fixBase L L (by omega)] at hloop
  have hns : ∀ n, ¬ skipped L n := fun n hs => by unfold skipped at hs; omega
  rcases fixLoop_ok _ 0 L 17 0 m hloop with ⟨-, hall⟩ | ⟨hm, -, -, hck, -⟩
  · obtain ⟨s, hs, -⟩ := hall 6 (Nat.zero_le _) (by decide) (hns 6)
    rw [rowChecksum_none2 (image_get_none _ _ (by
      rw [show (0 : Nat) + tableOffset 6 2 = 0x8B6F by decide]; exact h2))] at hs
    exact absurd hs (by simp)
  · have := imageOne_row hm hck
    omega

theorem imgOneOver_rows :
    ∀ n, n < 3 → ∃ s, rowChecksum imgOneOver 0 n = some s ∧ s ≠ 0x5a := by
  intro n hn
  refine ⟨0, ?_, by decide⟩
  interval_cases n <;>
    exact rowChecksum_of_get (image_get _ _ (by decide)) (image_get _ _ (by decide))
      (image_get _ _ (by decide))

theorem imgOneOver_loop :
    (fixLoop imgOneOver 0 0x8001 17 0).out = .fault (.romOob 0x84E3)
    ∧ Event.row 3 ∈ (fixLoop imgOneOver 0 0x8001 17 0).log
    ∧ Event.read 0x84E3 ∈ (fixLoop imgOneOver 0 0x8001 17 0).log := by
  have h := @fixLoop_oob imgOneOver 0 0x8001 3 0 0 (by decide) (by decide)
    (image_get _ _ (by decide)) (image_get _ _ (by decide))
    (image_get_none _ _ (by decide)) 16 0 (by decide) (by decide)
    (fun j _ h2 _ => imgOneOver_rows j h2)
  rw [show (0 : Nat) + tableOffset 3 2 = 0x84E3 by decide] at h
  exact h

/-- C16: the guard that passes over rows 3 and 6 acts at length exactly 0x8000
only. On the buffer of 0x8001 bytes that is 1 followed by zeros (rows 0..2 sum
to 0), `securityFix` selects row 3 and its run ends in the read of offset
0x84E3, outside the buffer. For a length of at least 0x8000 and the header at
offset 0, `securityFix` returns on every buffer of that length exactly when
the length is 0x8000 (the guarded case) or above 0x8B6F, which is the largest
offset of the table. -/
theorem C16_guard_only_at_min :
    (imgOneOver.length = 0x8001 ∧ imgOneOver[0]? = some 1
      ∧ (∀ n, n < 3 → ∃ s, rowChecksum imgOneOver 0 n = some s ∧ s ≠ 0x5a)
      ∧ (securityFix imgOneOver 0x8001).out = .fault (.romOob 0x84E3)
      ∧ Event.row 3 ∈ (securityFix imgOneOver 0x8001).log
      ∧ Event.read 0x84E3 ∈ (securityFix imgOneOver 0x8001).log)
    ∧ (∀ L, 0x8000 ≤ L →
        ((∀ rom, rom.length = L → fixBase rom L = 0 →
            ∃ b r, (securityFix rom L).out = .ok (b, r))
          ↔ (L = 0x8000 ∨ 0x8B6F < L)))
    ∧ (∀ n, n < 16 → ∀ k, k < 3 → tableOffset n k ≤ 0x8B6F)
    ∧ tableOffset 6 2 = 0x8B6F := by
  refine ⟨?_, ?_, fun n hn k hk => (tableOffset_bounds n hn k hk).2, by decide⟩
  · have hv : imgOneOver[0]? = some 1 := image_get _ _ (by decide)
    have hbase : fixBase imgOneOver 0x8001 = 0 := imageOne_fixBase _ _ (by decide)
    have hl := imgOneOver_loop
    obtain ⟨hout, hlog⟩ := @securityFix_loop_fault imgOneOver 0x8001 1 (.romOob 0x84E3)
      (by decide) hv (by rw [hbase]; exact hl.1)
    rw [hbase] at hlog
    exact ⟨image_length _ _, hv, imgOneOver_rows, hout, hlog _ hl.2.1, hlog _ hl.2.2⟩
  · intro L hL
    constructor
    · intro hall
      by_contra hno
      have h1 : 0x8000 < L := by omega
      have h2 : L ≤ 0x8B6F := by omega
      obtain ⟨b, r, h⟩ := hall (image L [(0, 1)]) (image_length _ _)
        (imageOne_fixBase L L (by omega))
      exact imageOne_no_return h1 h2 b r h
    · intro hcase rom hlen hbase
      apply securityFix_total hL
      · rw [hbase, hlen]; omega
      · intro n hn hs k hk
        rw [hbase, hlen]
        rcases hcase with h | h
        · have hne : n ≠ 3 ∧ n ≠ 6 := by unfold skipped at hs; omega
          have := tableOffset_small n hn hne.1 hne.2 k hk
          omega
        · have := (tableOffset_bounds n hn k hk).2
          omega

/-- C16 at the lengths 0x9000 and 0x8001: every run returns at the first, not
every run returns at the second. -/
theorem C16_guard_only_at_min_witness :
    (∀ rom, rom.length = 0x9000 → fixBase rom 0x9000 = 0 →
        ∃ b r, (securityFix rom 0x9000).out = .ok (b, r))
    ∧ ¬ (∀ rom, rom.length = 0x8001 → fixBase rom 0x8001 = 0 →
        ∃ b r, (securityFix rom 0x8001).out = .ok (b, r)) :=
  ⟨(C16_guard_only_at_min.2.1 0x9000 (by decide)).2 (Or.inr (by decide)),
    fun h => absurd ((C16_guard_only_at_min.2.1 0x8001 (by decide)).1 h) (by decide)⟩

/-! ## Repairing, then checking -/

theorem rowChecksum_some_bounds {rom : List Nat} {base n s : Nat}
    (h : rowChecksum rom base n = some s) :
    ∀ k, k < 3 → base + tableOffset n k < rom.length := by
  unfold rowChecksum at h
  cases h0 : rom[base + tableOffset n 0]? with
  | none => rw [h0] at h; simp at h
  | some b0 =>
    cases h1 : rom[base + tableOffset n 1]? with
    | none => rw [h0, h1] at h; simp at h
    | some b1 =>
      cases h2 : rom[base + tableOffset n 2]? with
      | none => rw [h0, h1, h2] at h; simp at h
      | some b2 =>
        intro k hk
        interval_cases k
        · exact get_lt_length h0
        · exact get_lt_length h1
        · exact get_lt_length h2

theorem rowChecksum_of_bounds {rom : List Nat} {base n : Nat}
    (h : ∀ k, k < 3 → base + tableOffset n k < rom.length) :
    ∃ s, rowChecksum rom base n = some s := by
  obtain ⟨b0, h0⟩ := get_of_lt (h 0 (by omega))
  obtain ⟨b1, h1⟩ := get_of_lt (h 1 (by omega))
  obtain ⟨b2, h2⟩ := get_of_lt (h 2 (by omega))
  exact ⟨_, rowChecksum_of_get h0 h1 h2⟩

/-- Below a matching row whose predecessors lie inside the buffer there is a
first matching row, and every evaluated row before that one has a checksum
other than 0x5A. -/
theorem first_match {rom : List Nat} {base length n : Nat} (hns : ¬ skipped length n)
    (hck : rowChecksum rom base n = some 0x5a)
    (hin : ∀ j, j < n → ¬ skipped length j → ∀ k, k < 3 →
      base + tableOffset j k < rom.length) :
    ∃ m, m ≤ n ∧ ¬ skipped length m ∧ rowChecksum rom base m = some 0x5a
      ∧ ∀ j, j < m → ¬ skipped length j →
          ∃ s, rowChecksum rom base j = some s ∧ s ≠ 0x5a := by
  classical
  have hex : ∃ m, ¬ skipped length m ∧ rowChecksum rom base m = some 0x5a := ⟨n, hns, hck⟩
  have hle : Nat.find hex ≤ n := Nat.find_min' hex ⟨hns, hck⟩
  refine ⟨Nat.find hex, hle, (Nat.find_spec hex).1, (Nat.find_spec hex).2, ?_⟩
  intro j hj hjs
  obtain ⟨s, hs⟩ := rowChecksum_of_bounds (hin j (by omega) hjs)
  refine ⟨s, hs, ?_⟩
  intro h5a
  rw [h5a] at hs
  exact Nat.find_min hex hj ⟨hjs, hs⟩

/-- A row that has a checksum in a buffer of exactly `length` bytes is not one
of the rows passed over at that length. -/
theorem not_skipped_of_checksum {rom : List Nat} {length n s : Nat} (hsize : rom.length = length)
    (hck : rowChecksum rom (fixBase rom length) n = some s) : ¬ skipped length n := by
  intro hs
  unfold skipped at hs
  obtain ⟨hl, h36⟩ := hs
  subst hl
  rw [fixBase_min] at hck
  have hb := rowChecksum_some_bounds hck 2 (by omega)
  rw [hsize] at hb
  rcases h36 with h | h
  · subst h
    exact absurd hb (by decide)
  · subst h
    exact absurd hb (by decide)

theorem imgRowFour_rows :
    ∀ n, n < 3 → ∃ s, rowChecksum imgRowFour 0 n = some s ∧ s ≠ 0x5a := by
  intro n hn
  refine ⟨0, ?_, by decide⟩
  interval_cases n <;>
    exact rowChecksum_of_get (image_get _ _ (by decide)) (image_get _ _ (by decide))
      (image_get _ _ (by decide))

theorem imgRowFour_tag : systemField imgRowFour 0 = tigerTag := by
  apply systemField_of_get
  intro k hk
  interval_cases k <;> exact image_get _ _ (by decide)

theorem imgRowFour_base : checkBase imgRowFour = 0 ∧ fixBase imgRowFour 0x8001 = 0 := by
  have hv : imgRowFour[0]? = some 1 := image_get _ _ (by decide)
  refine ⟨base_of_first_one hv, ?_⟩
  unfold fixBase
  rw [hv]
  simp

theorem imgRowFour_fix : (securityFix imgRowFour 0x8001).out = .fault (.romOob 0x84E3) := by
  have hv : imgRowFour[0]? = some 1 := image_get _ _ (by decide)
  have h := @fixLoop_oob imgRowFour 0 0x8001 3 0 0 (by decide) (by decide)
    (image_get _ _ (by decide)) (image_get _ _ (by decide))
    (image_get_none _ _ (by decide)) 16 0 (by decide) (by decide)
    (fun j _ h2 _ => imgRowFour_rows j h2)
  rw [show (0 : Nat) + tableOffset 3 2 = 0x84E3 by decide] at h
  exact (@securityFix_loop_fault imgRowFour 0x8001 1 (.romOob 0x84E3) (by decide) hv
    (by rw [imgRowFour_base.2]; exact h.1)).1

/-- C1, as stated, fails. First buffer: 32 KB, row 0 sums to 0x5A, no system
tag; `securityFix` succeeds and `securityCheck` then returns false. Second
buffer: 32 KB, first byte 0x00, tag in place; `securityFix` repairs the header
at offset 0 and `securityCheck` then looks for it at 0x40000, outside the
buffer. Third buffer: 0x8001 bytes, first byte 1, tag in place, row 4 sums to
0x5A; `securityFix` evaluates row 3 first, reads 0x84E3 outside the buffer,
and does not return. -/
theorem C1_counterexample :
    (imgNoTag.length = 0x8000 ∧ rowChecksum imgNoTag 0 0 = some 0x5a
      ∧ (securityFix imgNoTag 0x8000).out = .ok (true, patched imgNoTag 0 0)
      ∧ (securityCheck (patched imgNoTag 0 0)).out = .ok false)
    ∧ (imgZeroFirst.length = 0x8000 ∧ rowChecksum imgZeroFirst 0 0 = some 0x5a
      ∧ systemField imgZeroFirst 0 = tigerTag
      ∧ (securityFix imgZeroFirst 0x8000).out = .ok (true, patched imgZeroFirst 0 0)
      ∧ (securityCheck (patched imgZeroFirst 0 0)).out = .fault (.romOob 0x4001A))
    ∧ (imgRowFour.length = 0x8001 ∧ rowChecksum imgRowFour 0 4 = some 0x5a
      ∧ systemField imgRowFour 0 = tigerTag
      ∧ checkBase imgRowFour = 0 ∧ fixBase imgRowFour 0x8001 = 0
      ∧ (securityFix imgRowFour 0x8001).out = .fault (.romOob 0x84E3)) :=
  ⟨⟨image_length _ _,
      rowChecksum_of_get (image_get _ _ (by decide)) (image_get _ _ (by decide))
        (image_get _ _ (by decide)),
      imgNoTag_fix, imgNoTag_check⟩,
    ⟨image_length _ _,
      rowChecksum_of_get (image_get _ _ (by decide)) (image_get _ _ (by decide))
        (image_get _ _ (by decide)),
      imgZeroFirst_tag, imgZeroFirst_fix, imgZeroFirst_check⟩,
    ⟨image_length _ _,
      rowChecksum_of_get (image_get _ _ (by decide)) (image_get _ _ (by decide))
        (image_get _ _ (by decide)),
      imgRowFour_tag, imgRowFour_base.1, imgRowFour_base.2, imgRowFour_fix⟩⟩

/-- C1, amended: for every buffer of length at least 0x8000 in which the three
bytes of some row sum modulo 256 to 0x5A and every row `securityFix` evaluates
before that row lies inside the buffer, if the nine bytes of the header's
system field are `TigerDMGC` and `securityCheck` looks for the header where
`securityFix` does (first byte not 0x00/0xFF, or length above 0x8000), then
`securityFix` returns true and `securityCheck` on the buffer it leaves returns
true. -/
theorem C1_fix_then_check (rom : List Nat) (length : Nat) (hsize : rom.length = length)
    (hlen : 0x8000 ≤ length)
    (hmatch : ∃ n, n < 16 ∧ rowChecksum rom (fixBase rom length) n = some 0x5a
      ∧ ∀ j, j < n → ¬ skipped length j → ∀ k, k < 3 →
          fixBase rom length + tableOffset j k < rom.length)
    (hsys : systemField rom (fixBase rom length) = tigerTag)
    (hloc : ¬ (rom[0]? = some 0 ∨ rom[0]? = some 0xff) ∨ length > 0x8000) :
    ∃ r, (securityFix rom length).out = .ok (true, r) ∧ (securityCheck r).out = .ok true := by
  obtain ⟨n, hn, hck, hin⟩ := hmatch
  have hns := not_skipped_of_checksum hsize hck
  obtain ⟨m, hmn, hms, hckm, hall⟩ := first_match hns hck hin
  have hm : m < 16 := by omega
  obtain ⟨v, hv⟩ := get_of_lt (show 0 < rom.length by omega)
  have h28 : fixBase rom length + 28 < rom.length := by
    have h1 := rowChecksum_some_bounds hckm 0 (by omega)
    have h2 := (tableOffset_bounds m hm 0 (by omega)).1
    omega
  have hloop := fixLoop_found rom (fixBase rom length) length hm hms hckm 16 0
    (Nat.zero_le _) (le_refl _) (fun j _ h2 h3 => hall j h2 h3)
  have hfix := (securityFix_of_loop hlen hv hloop).2 (code_facts m hm).2.2.2 h28
  exact ⟨_, hfix, check_after_fix hlen hfix hsys (base_agree hloc)⟩

/-- C1, amended, at a 32 KB buffer with first byte 1, the tag, and row 0
summing to 0x5A. -/
theorem C1_fix_then_check_witness :
    imgTagged.length = 0x8000 ∧ 0x8000 ≤ 0x8000
    ∧ rowChecksum imgTagged (fixBase imgTagged 0x8000) 0 = some 0x5a
    ∧ systemField imgTagged (fixBase imgTagged 0x8000) = tigerTag
    ∧ imgTagged[0]? = some 1
    ∧ ∃ r, (securityFix imgTagged 0x8000).out = .ok (true, r)
        ∧ (securityCheck r).out = .ok true :=
  have hb : fixBase imgTagged 0x8000 = 0 := fixBase_min _
  have hv : imgTagged[0]? = some 1 := image_get _ _ (by decide)
  have hck : rowChecksum imgTagged (fixBase imgTagged 0x8000) 0 = some 0x5a := by
    rw [hb]
    exact rowChecksum_of_get (image_get _ _ (by decide)) (image_get _ _ (by decide))
      (image_get _ _ (by decide))
  have hsys : systemField imgTagged (fixBase imgTagged 0x8000) = tigerTag := by
    rw [hb]; exact imgTagged_tag
  ⟨image_length _ _, le_refl _, hck, hsys, hv,
    C1_fix_then_check imgTagged 0x8000 (image_length _ _) (le_refl _)
      ⟨0, by decide, hck, fun j hj => absurd hj (by omega)⟩ hsys
      (Or.inl (by rw [hv]; decide))⟩

end GcFix
